import Mathlib

/-!
Shallow embedding of the proto-file indexer (`proto_indexer.py`) and the
structural parser (`proto_parser.py`).

Python dictionaries are modelled as insertion-ordered association lists with
unique keys: `dSet` updates an existing key in place (keeping its position,
as a Python dict does) and appends fresh keys at the end; `dPop` removes a
key (`dict.pop(k, None)` / `del`); iteration order of the association list
is the dict's insertion order.  Python sets are modelled as lists used only
through membership and insertion.  Exceptions are modelled with
`Except`/`Option`: reading a file yields `Except String String` (error
message or file content), and a raising method returns its exception as a
value.  `None` becomes `none`; Python truthiness of an optional string
(`None` and `""` are falsy) is modelled by `optTruthy`.
-/

/-! ## Ordered-dictionary model -/

def dGet {α : Type} (d : List (String × α)) (k : String) : Option α :=
  (d.find? (fun kv => kv.1 == k)).map (·.2)

def dSet {α : Type} (d : List (String × α)) (k : String) (v : α) :
    List (String × α) :=
  match d with
  | [] => [(k, v)]
  | kv :: rest => if kv.1 == k then (k, v) :: rest else kv :: dSet rest k v

/-- `dict.pop(k, None)` / `del d[k]`: drop the (unique) binding of `k`. -/
def dPop {α : Type} (d : List (String × α)) (k : String) : List (String × α) :=
  match d with
  | [] => []
  | kv :: rest => if kv.1 == k then rest else kv :: dPop rest k

/-- `d.update(kvs)`: apply every binding of `kvs`, in order, to `d`. -/
def dUpd {α : Type} (d kvs : List (String × α)) : List (String × α) :=
  kvs.foldl (fun acc kv => dSet acc kv.1 kv.2) d

def dKeys {α : Type} (d : List (String × α)) : List String := d.map (·.1)

/-! ## Character/string helpers (ASCII fragment actually exercised) -/

/-- Python truthiness of an optional string: `None` and `""` are falsy. -/
def optTruthy : Option String → Bool
  | none => false
  | some s => !(s == "")

/-- `'.' in s` -/
def containsDot (s : String) : Bool := s.data.contains '.'

/-- `s.endswith(t)` -/
def strEndsWith (s t : String) : Bool := t.data.isSuffixOf s.data

/-- `s.rsplit('.', 1)[0]` for a string that contains a dot:
everything before the last `'.'`. -/
def beforeLastDot (s : String) : String :=
  String.mk ((((s.data.reverse).dropWhile (· != '.')).drop 1).reverse)

/-! ## Parsed-entity data model (`proto_parser.py` dataclasses) -/

/-- `ProtoField`: a field in a message, or an enum value. -/
structure ProtoField where
  name : String
  type : String
  number : Nat
  label : Option String := none
  comment : Option String := none
  options : List (String × String) := []
deriving Repr, DecidableEq

/-- `ProtoEnum` -/
structure ProtoEnum where
  name : String
  full_name : String
  values : List ProtoField := []
  comment : Option String := none
deriving Repr, DecidableEq

/-- `ProtoMessage` (inductive because it nests lists of itself). -/
inductive ProtoMessage where
  | mk (name : String) (full_name : String) (fields : List ProtoField)
      (nested_messages : List ProtoMessage) (nested_enums : List ProtoEnum)
      (comment : Option String)
deriving Repr

def ProtoMessage.name : ProtoMessage → String
  | .mk n _ _ _ _ _ => n

def ProtoMessage.full_name : ProtoMessage → String
  | .mk _ fn _ _ _ _ => fn

def ProtoMessage.fields : ProtoMessage → List ProtoField
  | .mk _ _ fs _ _ _ => fs

def ProtoMessage.comment : ProtoMessage → Option String
  | .mk _ _ _ _ _ c => c

/-- `ProtoRPC` -/
structure ProtoRPC where
  name : String
  request_type : String
  response_type : String
  request_streaming : Bool := false
  response_streaming : Bool := false
  comment : Option String := none
deriving Repr, DecidableEq

/-- `ProtoService` -/
structure ProtoService where
  name : String
  full_name : String
  rpcs : List ProtoRPC := []
  comment : Option String := none
deriving Repr, DecidableEq

/-- `ProtoFile` (the field `syntax` of the dataclass is rendered
`syn_version` here). -/
structure ProtoFile where
  path : String
  syn_version : String := "proto2"
  package : String := ""
  services : List ProtoService := []
  messages : List ProtoMessage := []
  enums : List ProtoEnum := []
  imports : List String := []
deriving Repr

/-! ## The index state (`ProtoIndex.__init__`) -/

/-- The third component of a search-entry tuple: a reference to the indexed
entity. -/
inductive SIObj where
  | service (s : ProtoService)
  | message (m : ProtoMessage)
  | enum (e : ProtoEnum)
deriving Repr

/-- One `(full_name, type, object, file_path)` tuple of `_search_entries`. -/
structure SearchEntry where
  full_name : String
  kind : String
  obj : SIObj
  file : String
deriving Repr

structure ProtoIndex where
  files : List (String × ProtoFile)
  services : List (String × ProtoService)
  messages : List (String × ProtoMessage)
  enums : List (String × ProtoEnum)
  searchEntries : List SearchEntry
deriving Repr

def emptyIndex : ProtoIndex := ⟨[], [], [], [], []⟩

/-! ## Ingestion and eviction -/

/-- The body of `ProtoIndex.index_file` after `parse_proto_file` has
returned successfully: fan-out writes into the four tables and the
search-entry list. -/
def index_parsed_file (idx : ProtoIndex) (file_path : String)
    (proto_file : ProtoFile) : ProtoIndex :=
  { files := dSet idx.files file_path proto_file
    services := proto_file.services.foldl (fun d s => dSet d s.full_name s)
      idx.services
    messages := proto_file.messages.foldl (fun d m => dSet d m.full_name m)
      idx.messages
    enums := proto_file.enums.foldl (fun d e => dSet d e.full_name e) idx.enums
    searchEntries := idx.searchEntries
      ++ proto_file.services.map
          (fun s => ⟨s.full_name, "service", .service s, file_path⟩)
      ++ proto_file.messages.map
          (fun m => ⟨m.full_name, "message", .message m, file_path⟩)
      ++ proto_file.enums.map
          (fun e => ⟨e.full_name, "enum", .enum e, file_path⟩) }

/-- `ProtoIndex.remove_file`. -/
def remove_file (idx : ProtoIndex) (file_path : String) : ProtoIndex :=
  match dGet idx.files file_path with
  | none => idx
  | some proto_file =>
    { files := dPop idx.files file_path
      services := proto_file.services.foldl (fun d s => dPop d s.full_name)
        idx.services
      messages := proto_file.messages.foldl (fun d m => dPop d m.full_name)
        idx.messages
      enums := proto_file.enums.foldl (fun d e => dPop d e.full_name) idx.enums
      searchEntries := idx.searchEntries.filter (fun e => e.file != file_path) }

/-- `ProtoIndex.get_stats`. -/
structure Stats where
  total_files : Nat
  total_services : Nat
  total_messages : Nat
  total_enums : Nat
  total_searchable_entries : Nat
deriving Repr, DecidableEq

def get_stats (idx : ProtoIndex) : Stats :=
  ⟨idx.files.length, idx.services.length, idx.messages.length,
    idx.enums.length, idx.searchEntries.length⟩

/-! ## Type lookup (`_find_message_by_type`, `_find_enum_by_type`,
`_find_file_for_definition`) -/

/-- `package_prefix = context_package.rsplit('.', 1)[0] if '.' in
context_package else ''` -/
def pkgHead (context_package : String) : String :=
  if containsDot context_package then beforeLastDot context_package else ""

def find_message_by_type (idx : ProtoIndex) (type_name context_package : String) :
    Option ProtoMessage :=
  match dGet idx.messages type_name with
  | some m => some m
  | none =>
    let hd := pkgHead context_package
    let viaPkg : Option ProtoMessage :=
      if hd == "" then none
      else dGet idx.messages (hd ++ "." ++ type_name)
    match viaPkg with
    | some m => some m
    | none =>
      (idx.messages.find? (fun kv =>
        kv.2.name == type_name || strEndsWith kv.1 ("." ++ type_name))).map (·.2)

def find_enum_by_type (idx : ProtoIndex) (type_name context_package : String) :
    Option ProtoEnum :=
  match dGet idx.enums type_name with
  | some e => some e
  | none =>
    let hd := pkgHead context_package
    let viaPkg : Option ProtoEnum :=
      if hd == "" then none
      else dGet idx.enums (hd ++ "." ++ type_name)
    match viaPkg with
    | some e => some e
    | none =>
      (idx.enums.find? (fun kv =>
        kv.2.name == type_name || strEndsWith kv.1 ("." ++ type_name))).map (·.2)

def find_file_for_definition (idx : ProtoIndex) (full_name def_type : String) :
    Option String :=
  (idx.files.find? (fun kv =>
    if def_type == "service" then
      kv.2.services.any (fun s => s.full_name == full_name)
    else if def_type == "message" then
      kv.2.messages.any (fun m => m.full_name == full_name)
    else if def_type == "enum" then
      kv.2.enums.any (fun e => e.full_name == full_name)
    else false)).map (·.1)

/-! ## Result views (the nested dictionaries returned by the getters; a
present/absent dictionary key becomes `some`/`none`) -/

structure FieldView where
  name : String
  type : String
  number : Nat
  label : Option String
  comment : Option String
deriving Repr, DecidableEq

structure ValueView where
  name : String
  number : Nat
  comment : Option String
deriving Repr, DecidableEq

def fieldView (f : ProtoField) : FieldView :=
  ⟨f.name, f.type, f.number, f.label, f.comment⟩

def valueView (v : ProtoField) : ValueView := ⟨v.name, v.number, v.comment⟩

/-- A value of the `resolved_types` map (`kind` is `"message"` or
`"enum"`, with the corresponding `fields`/`values` key). -/
inductive ResolvedDef where
  | message (name full_name : String) (comment : Option String)
      (fields : List FieldView) (file : Option String)
  | enum (name full_name : String) (comment : Option String)
      (values : List ValueView) (file : Option String)
deriving Repr, DecidableEq

def ResolvedDef.kind : ResolvedDef → String
  | .message .. => "message"
  | .enum .. => "enum"

def ResolvedDef.valuesOf : ResolvedDef → List ValueView
  | .message .. => []
  | .enum _ _ _ vs _ => vs

structure RPCView where
  name : String
  request_type : String
  response_type : String
  request_streaming : Bool
  response_streaming : Bool
  comment : Option String
deriving Repr, DecidableEq

structure MessageView where
  name : String
  full_name : String
  comment : Option String
  fields : List FieldView
  file : Option String
  resolved_types : Option (List (String × ResolvedDef))
deriving Repr, DecidableEq

structure ServiceView where
  name : String
  full_name : String
  comment : Option String
  rpcs : List RPCView
  file : Option String
  resolved_types : Option (List (String × ResolvedDef))
deriving Repr, DecidableEq

structure EnumView where
  name : String
  full_name : String
  comment : Option String
  values : List ValueView
  file : Option String
deriving Repr, DecidableEq

/-- The `resolved_types[...] = {...}` entry built for a found message. -/
def resolvedOfMessage (idx : ProtoIndex) (m : ProtoMessage) : ResolvedDef :=
  .message m.name m.full_name m.comment (m.fields.map fieldView)
    (find_file_for_definition idx m.full_name "message")

/-- The `resolved_types[...] = {...}` entry built for a found enum. -/
def resolvedOfEnum (idx : ProtoIndex) (e : ProtoEnum) : ResolvedDef :=
  .enum e.name e.full_name e.comment (e.values.map valueView)
    (find_file_for_definition idx e.full_name "enum")

/-! ## Recursive type resolution (`_resolve_message_types`) -/

/-- The closed set of primitive type tokens skipped by the resolver. -/
def primitiveTypes : List String :=
  ["string", "int32", "int64", "uint32", "uint64",
   "sint32", "sint64", "fixed32", "fixed64", "sfixed32",
   "sfixed64", "bool", "bytes", "float", "double"]

/-- The `for field in message.fields` loop of `_resolve_message_types`,
with the mutated `resolved` dictionary and `visited` set made explicit and
the nested call `_resolve_message_types(msg, max_depth - 1, visited)`
abstracted as `resolveNested`. -/
def resolve_fields (idx : ProtoIndex)
    (resolveNested : ProtoMessage → List String →
      List (String × ResolvedDef) × List String)
    (ctx : String) :
    List ProtoField → List String → List (String × ResolvedDef) × List String
  | [], visited => ([], visited)
  | f :: rest, visited =>
    if primitiveTypes.contains f.type then
      resolve_fields idx resolveNested ctx rest visited
    else if visited.contains f.type then
      resolve_fields idx resolveNested ctx rest visited
    else
      let visited1 := f.type :: visited
      match find_message_by_type idx f.type ctx with
      | some msg =>
        let nestedPair := resolveNested msg visited1
        let restPair := resolve_fields idx resolveNested ctx rest nestedPair.2
        (dUpd (dUpd [(f.type, resolvedOfMessage idx msg)] nestedPair.1)
          restPair.1, restPair.2)
      | none =>
        match find_enum_by_type idx f.type ctx with
        | some en =>
          let restPair := resolve_fields idx resolveNested ctx rest visited1
          (dUpd [(f.type, resolvedOfEnum idx en)] restPair.1, restPair.2)
        | none =>
          resolve_fields idx resolveNested ctx rest visited1

/-- `_resolve_message_types` by recursion on `max_depth`: the
`max_depth <= 0` guard is the zero case, and the nested call recurses at
`max_depth - 1` on the shared `visited` set. -/
def resolve_depth (idx : ProtoIndex) :
    Nat → ProtoMessage → List String →
      List (String × ResolvedDef) × List String
  | 0, _, visited => ([], visited)
  | d + 1, message, visited =>
    resolve_fields idx (fun m v => resolve_depth idx d m v)
      message.full_name message.fields visited

/-- `_resolve_message_types(message, max_depth, visited)`. -/
def resolve_message_types (idx : ProtoIndex) (message : ProtoMessage)
    (max_depth : Nat) (visited : List String) :
    List (String × ResolvedDef) × List String :=
  resolve_depth idx max_depth message visited

/-! ## The getters (`get_message`, `get_service`, `get_enum`) -/

def get_message (idx : ProtoIndex) (name : String)
    (resolve_types : Bool := true) (max_depth : Nat := 10) :
    Option MessageView :=
  let viaExact := dGet idx.messages name
  let message : Option ProtoMessage :=
    match viaExact with
    | some m => some m
    | none =>
      (idx.messages.find? (fun kv =>
        strEndsWith kv.1 ("." ++ name) || kv.2.name == name)).map (·.2)
  match message with
  | none => none
  | some message =>
    let base : MessageView :=
      { name := message.name
        full_name := message.full_name
        comment := message.comment
        fields := message.fields.map fieldView
        file := find_file_for_definition idx message.full_name "message"
        resolved_types := none }
    if resolve_types && max_depth > 0 then
      let resolved := (resolve_message_types idx message max_depth []).1
      if resolved.isEmpty then some base
      else some { base with resolved_types := some resolved }
    else some base

def get_enum (idx : ProtoIndex) (name : String) : Option EnumView :=
  let viaExact := dGet idx.enums name
  let proto_enum : Option ProtoEnum :=
    match viaExact with
    | some e => some e
    | none =>
      (idx.enums.find? (fun kv =>
        strEndsWith kv.1 ("." ++ name) || kv.2.name == name)).map (·.2)
  match proto_enum with
  | none => none
  | some e =>
    some { name := e.name
           full_name := e.full_name
           comment := e.comment
           values := e.values.map valueView
           file := find_file_for_definition idx e.full_name "enum" }

/-- One request- or response-type step of the RPC loop in `get_service`:
`find _message_by_type`, the `not in visited` guard, the
`resolved_types[t] = {...}` write, then the nested
`_resolve_message_types(msg, max_depth - 1, visited)` merge. -/
def resolveRpcSide (idx : ProtoIndex) (max_depth : Nat) (svcFullName t : String)
    (acc : List (String × ResolvedDef)) (visited : List String) :
    List (String × ResolvedDef) × List String :=
  match find_message_by_type idx t svcFullName with
  | none => (acc, visited)
  | some m =>
    if visited.contains t then (acc, visited)
    else
      let visited1 := t :: visited
      let acc1 := dSet acc t (resolvedOfMessage idx m)
      let nested := resolve_message_types idx m (max_depth - 1) visited1
      (dUpd acc1 nested.1, nested.2)

/-- The `for rpc in service.rpcs` resolution loop of `get_service`. -/
def resolveRpcs (idx : ProtoIndex) (max_depth : Nat) (svcFullName : String) :
    List ProtoRPC → List (String × ResolvedDef) → List String →
      List (String × ResolvedDef) × List String
  | [], acc, visited => (acc, visited)
  | rpc :: rest, acc, visited =>
    let p1 := resolveRpcSide idx max_depth svcFullName rpc.request_type acc visited
    let p2 := resolveRpcSide idx max_depth svcFullName rpc.response_type p1.1 p1.2
    resolveRpcs idx max_depth svcFullName rest p2.1 p2.2

def rpcView (rpc : ProtoRPC) : RPCView :=
  ⟨rpc.name, rpc.request_type, rpc.response_type, rpc.request_streaming,
    rpc.response_streaming, rpc.comment⟩

def get_service (idx : ProtoIndex) (name : String)
    (resolve_types : Bool := true) (max_depth : Nat := 10) :
    Option ServiceView :=
  let viaExact := dGet idx.services name
  let service : Option ProtoService :=
    match viaExact with
    | some s => some s
    | none =>
      (idx.services.find? (fun kv =>
        strEndsWith kv.1 ("." ++ name) || kv.2.name == name)).map (·.2)
  match service with
  | none => none
  | some service =>
    let base : ServiceView :=
      { name := service.name
        full_name := service.full_name
        comment := service.comment
        rpcs := service.rpcs.map rpcView
        file := find_file_for_definition idx service.full_name "service"
        resolved_types := none }
    if resolve_types && max_depth > 0 then
      let resolved := (resolveRpcs idx max_depth service.full_name
        service.rpcs [] []).1
      if resolved.isEmpty then some base
      else some { base with resolved_types := some resolved }
    else some base

/-! ## The structural parser (`proto_parser.py`)

The parser works on `List Char`.  Each regular expression of the source is
rendered as a hand-written matcher implementing exactly the backtracking
semantics of that pattern (the patterns contain no nullable quantified
groups and their alternatives are first-character disjoint, so greedy
scanning with one explicit fallback per optional group is the precise
semantics).  `re.finditer` becomes `scanAll`: try the matcher at every
position left to right and restart after the end of each match;
`re.search` becomes `scanFirst`. -/

abbrev Chars := List Char

/-- Python `\s` (ASCII fragment). -/
def isPySpace (c : Char) : Bool :=
  c == ' ' || c == '\t' || c == '\n' || c == '\r' || c == '\x0b' || c == '\x0c'

/-- Python `\w` (ASCII fragment). -/
def isWordChar (c : Char) : Bool := c.isAlphanum || c == '_'

/-- Python `str.strip()`. -/
def pyStrip (s : Chars) : Chars :=
  ((s.dropWhile isPySpace).reverse.dropWhile isPySpace).reverse

/-- Python `content.split('\n')`. -/
def splitOnNl : Chars → List Chars
  | [] => [[]]
  | c :: rest =>
    if c == '\n' then [] :: splitOnNl rest
    else
      match splitOnNl rest with
      | [] => [[c]]
      | l :: ls => (c :: l) :: ls

/-- Python `'\n'.join(...)`. -/
def joinNl (ls : List Chars) : Chars := List.intercalate ['\n'] ls

/-- Python `' '.join(...)`. -/
def joinSpace : List Chars → Chars
  | [] => []
  | [x] => x
  | x :: rest => x ++ ' ' :: joinSpace rest

/-- Split a line at its first `//`: `re.search(r'//(.*)$', line)` yields the
second component, `re.sub(r'//.*$', '', line)` the first. -/
def splitAtComment : Chars → Option (Chars × Chars)
  | [] => none
  | '/' :: '/' :: rest => some ([], rest)
  | c :: rest => (splitAtComment rest).map (fun p => (c :: p.1, p.2))

/-- Python truthiness of an optional character list. -/
def charsTruthy : Option Chars → Bool
  | none => false
  | some l => !l.isEmpty

/-- Python `name in line` (substring containment). -/
def isSubstr (pat : Chars) : Chars → Bool
  | [] => pat.isEmpty
  | s@(_ :: rest) => List.isPrefixOf pat s || isSubstr pat rest

/-! ### `_preprocess_content` -/

/-- The line loop of `_preprocess_content`, with the `current_comment`
accumulator explicit. -/
def preprocess_go : List Chars → List Chars → List (Chars × Option Chars)
  | [], _ => []
  | line :: rest, current_comment =>
    let comment : Option Chars := (splitAtComment line).map (fun p => pyStrip p.2)
    let lwc : Chars :=
      pyStrip (match splitAtComment line with | some p => p.1 | none => line)
    if lwc.isEmpty && charsTruthy comment then
      preprocess_go rest (current_comment ++ [comment.getD []])
    else
      let fullc : Option Chars :=
        if current_comment.isEmpty then none else some (joinSpace current_comment)
      let fullc : Option Chars :=
        if charsTruthy comment && charsTruthy fullc then
          some ((fullc.getD []) ++ ' ' :: (comment.getD []))
        else if charsTruthy comment then comment
        else fullc
      (lwc, fullc) :: preprocess_go rest []

/-- `ProtoParser._preprocess_content`. -/
def preprocess_content (content : Chars) : List (Chars × Option Chars) :=
  preprocess_go (splitOnNl content) []

/-! ### Generic scanning -/

/-- `re.finditer`, fuelled so that it computes by structural recursion:
attempt the matcher at every position, restarting after the end of each
(non-empty) match.  The fuel strictly exceeds the remaining length at
every call, so the zero case is unreachable. -/
def scanAllGo {α : Type} (matcher : Chars → Option (α × Chars)) :
    Nat → Chars → List α
  | 0, _ => []
  | _ + 1, [] =>
    match matcher [] with
    | some (a, _) => [a]
    | none => []
  | fuel + 1, s@(_ :: tail) =>
    match matcher s with
    | some (a, rest) =>
      if rest.length < s.length then a :: scanAllGo matcher fuel rest
      else a :: scanAllGo matcher fuel tail
    | none => scanAllGo matcher fuel tail

def scanAll {α : Type} (matcher : Chars → Option (α × Chars)) (s : Chars) :
    List α :=
  scanAllGo matcher (s.length + 1) s

/-- `re.search`: first position where the matcher succeeds. -/
def scanFirst {α : Type} (matcher : Chars → Option (α × Chars)) : Chars → Option α
  | [] => (matcher []).map (·.1)
  | s@(_ :: tail) =>
    match matcher s with
    | some (a, _) => some a
    | none => scanFirst matcher tail

def expectChar (c : Char) : Chars → Option Chars
  | x :: rest => if x == c then some rest else none
  | [] => none

def expectList (lit : Chars) (s : Chars) : Option Chars :=
  if List.isPrefixOf lit s then some (s.drop lit.length) else none

/-- `\s*` -/
def skipSpaces (s : Chars) : Chars := s.dropWhile isPySpace

/-- `\s+` -/
def spaces1 : Chars → Option Chars
  | c :: rest => if isPySpace c then some (skipSpaces rest) else none
  | [] => none

/-- One-or-more characters satisfying `p` (e.g. `\w+`, `\d+`), greedy. -/
def takeWhile1 (p : Char → Bool) (s : Chars) : Option (Chars × Chars) :=
  let t := s.takeWhile p
  if t.isEmpty then none else some (t, s.drop t.length)

def natOfDigits (ds : Chars) : Nat :=
  ds.foldl (fun n c => n * 10 + (c.toNat - '0'.toNat)) 0

/-! ### The block and body matchers -/

/-- A matched `service`/`message`/`enum` block: captured name and body. -/
structure BlockRaw where
  name : Chars
  body : Chars
deriving Repr

/-- `service\s+(\w+)\s*\{([^}]*)\}` -/
def matchServiceAt (s : Chars) : Option (BlockRaw × Chars) := do
  let s ← expectList "service".data s
  let s ← spaces1 s
  let (nm, s) ← takeWhile1 isWordChar s
  let s := skipSpaces s
  let s ← expectChar '\x7b' s
  let body := s.takeWhile (fun c => c != '\x7d')
  let s ← expectChar '\x7d' (s.drop body.length)
  pure (⟨nm, body⟩, s)

/-- `message\s+(\w+)\s*\{([^}]*(?:\{[^}]*\}[^}]*)*)\}` — after the greedy
`[^}]*` the next character is never `{`, so the inner quantified group
always matches zero iterations and the body group is exactly the text up to
the first `}`. -/
def matchMessageAt (s : Chars) : Option (BlockRaw × Chars) := do
  let s ← expectList "message".data s
  let s ← spaces1 s
  let (nm, s) ← takeWhile1 isWordChar s
  let s := skipSpaces s
  let s ← expectChar '\x7b' s
  let body := s.takeWhile (fun c => c != '\x7d')
  let s ← expectChar '\x7d' (s.drop body.length)
  pure (⟨nm, body⟩, s)

/-- `enum\s+(\w+)\s*\{([^}]*)\}` -/
def matchEnumAt (s : Chars) : Option (BlockRaw × Chars) := do
  let s ← expectList "enum".data s
  let s ← spaces1 s
  let (nm, s) ← takeWhile1 isWordChar s
  let s := skipSpaces s
  let s ← expectChar '\x7b' s
  let body := s.takeWhile (fun c => c != '\x7d')
  let s ← expectChar '\x7d' (s.drop body.length)
  pure (⟨nm, body⟩, s)

/-- A match of the field pattern: captured label, type, name, number. -/
structure FieldRaw where
  label : Option String
  type : Chars
  name : Chars
  number : Nat
deriving Repr

/-- `\s*(\w+)\s+(\w+)\s*=\s*(\d+)` — the field pattern after the optional
label group. -/
def matchFieldCore (s : Chars) : Option ((Chars × Chars × Nat) × Chars) := do
  let s := skipSpaces s
  let (ty, s) ← takeWhile1 isWordChar s
  let s ← spaces1 s
  let (nm, s) ← takeWhile1 isWordChar s
  let s := skipSpaces s
  let s ← expectChar '=' s
  let s := skipSpaces s
  let (ds, s) ← takeWhile1 Char.isDigit s
  pure ((ty, nm, natOfDigits ds), s)

def tryLabel : List String → Chars → Option (String × Chars)
  | [], _ => none
  | lab :: rest, s =>
    match expectList lab.data s with
    | some s1 => some (lab, s1)
    | none => tryLabel rest s

/-- `(optional|required|repeated)?\s*(\w+)\s+(\w+)\s*=\s*(\d+)` — the three
label literals are first-character disjoint, so if the labelled branch
fails the engine falls back to the empty optional group. -/
def matchFieldAt (s : Chars) : Option (FieldRaw × Chars) :=
  match
    (do
      let (lab, s1) ← tryLabel ["optional", "required", "repeated"] s
      let (core, s2) ← matchFieldCore s1
      pure ((lab, core), s2)) with
  | some ((lab, ty, nm, num), s2) => some (⟨some lab, ty, nm, num⟩, s2)
  | none =>
    (matchFieldCore s).map (fun p => (⟨none, p.1.1, p.1.2.1, p.1.2.2⟩, p.2))

/-- `(\w+)\s*=\s*(\d+)` (enum values). -/
def matchEnumValueAt (s : Chars) : Option ((Chars × Nat) × Chars) := do
  let (nm, s) ← takeWhile1 isWordChar s
  let s := skipSpaces s
  let s ← expectChar '=' s
  let s := skipSpaces s
  let (ds, s) ← takeWhile1 Char.isDigit s
  pure ((nm, natOfDigits ds), s)

/-- A match of the RPC pattern. -/
structure RpcRaw where
  name : Chars
  request_streaming : Bool
  request_type : Chars
  response_streaming : Bool
  response_type : Chars
deriving Repr

/-- `(stream\s+)?(\w+)`: if the `stream` literal matches but `\s+` does
not, the optional group backtracks to empty. -/
def matchStreamType (s : Chars) : Option ((Bool × Chars) × Chars) :=
  match
    (do
      let s1 ← expectList "stream".data s
      let s2 ← spaces1 s1
      let (ty, s3) ← takeWhile1 isWordChar s2
      pure ((true, ty), s3)) with
  | some r => some r
  | none => (takeWhile1 isWordChar s).map (fun p => ((false, p.1), p.2))

/-- `rpc\s+(\w+)\s*\(\s*(stream\s+)?(\w+)\s*\)\s*returns\s*\(\s*(stream\s+)?(\w+)\s*\)` -/
def matchRpcAt (s : Chars) : Option (RpcRaw × Chars) := do
  let s ← expectList "rpc".data s
  let s ← spaces1 s
  let (nm, s) ← takeWhile1 isWordChar s
  let s := skipSpaces s
  let s ← expectChar '(' s
  let s := skipSpaces s
  let ((reqStr, reqTy), s) ← matchStreamType s
  let s := skipSpaces s
  let s ← expectChar ')' s
  let s := skipSpaces s
  let s ← expectList "returns".data s
  let s := skipSpaces s
  let s ← expectChar '(' s
  let s := skipSpaces s
  let ((respStr, respTy), s) ← matchStreamType s
  let s := skipSpaces s
  let s ← expectChar ')' s
  pure (⟨nm, reqStr, reqTy, respStr, respTy⟩, s)

/-! ### Top-level scalar extraction (run on the raw content) -/

def isQuote (c : Char) : Bool := c == '\"' || c == Char.ofNat 39

def expectQuote : Chars → Option Chars
  | c :: rest => if isQuote c then some rest else none
  | [] => none

/-- `syntax\s*=\s*["\'](\w+)["\']` (the keyword of the dataclass field
rendered `syn_version` in this embedding). -/
def matchSynAt (s : Chars) : Option (Chars × Chars) := do
  let s ← expectList "syntax".data s
  let s := skipSpaces s
  let s ← expectChar '=' s
  let s := skipSpaces s
  let s ← expectQuote s
  let (v, s) ← takeWhile1 isWordChar s
  let s ← expectQuote s
  pure (v, s)

def extract_syn_version (content : Chars) : String :=
  match scanFirst matchSynAt content with
  | some v => String.mk v
  | none => "proto2"

/-- `package\s+([\w.]+)\s*;` -/
def matchPackageAt (s : Chars) : Option (Chars × Chars) := do
  let s ← expectList "package".data s
  let s ← spaces1 s
  let (nm, s) ← takeWhile1 (fun c => isWordChar c || c == '.') s
  let s := skipSpaces s
  let s ← expectChar ';' s
  pure (nm, s)

def extract_package (content : Chars) : String :=
  match scanFirst matchPackageAt content with
  | some v => String.mk v
  | none => ""

/-- The optional `public\s+`/`weak\s+` modifier of an import statement; if
the literal matches but the following `\s+` (or the rest of the pattern)
fails, the position cannot match at all, exactly as for the committed
branch here. -/
def skipImportMod (s : Chars) : Chars :=
  match (do let s1 ← expectList "public".data s; spaces1 s1) with
  | some s1 => s1
  | none =>
    match (do let s1 ← expectList "weak".data s; spaces1 s1) with
    | some s1 => s1
    | none => s

/-- `import\s+(?:public\s+|weak\s+)?["\']([^"\']+)["\']` -/
def matchImportAt (s : Chars) : Option (Chars × Chars) := do
  let s ← expectList "import".data s
  let s ← spaces1 s
  let s := skipImportMod s
  let s ← expectQuote s
  let (p, s) ← takeWhile1 (fun c => !isQuote c) s
  let s ← expectQuote s
  pure (p, s)

def extract_imports (content : Chars) : List String :=
  (scanAll matchImportAt content).map String.mk

/-! ### Comment attachment (`_find_comment_in_body`,
`_find_comment_for_construct`) -/

/-- The line loop of `_find_comment_in_body`, carrying the previous line. -/
def fcbGo (name : Chars) (prev : Option Chars) : List Chars → Option Chars
  | [] => none
  | line :: rest =>
    if isSubstr name line then
      match splitAtComment line with
      | some p => some (pyStrip p.2)
      | none =>
        match prev with
        | some pl =>
          match splitAtComment pl with
          | some p => some (pyStrip p.2)
          | none => fcbGo name (some line) rest
        | none => fcbGo name (some line) rest
    else fcbGo name (some line) rest

def find_comment_in_body (body name : Chars) : Option Chars :=
  fcbGo name none (splitOnNl body)

/-- `re.search(rf'{keyword}\s+{name}', content)` (both arguments are plain
identifiers in every call site, so they act as literals). -/
def matchKwNameAt (keyword name : Chars) (s : Chars) : Option (Unit × Chars) := do
  let s ← expectList keyword s
  let s ← spaces1 s
  let s ← expectList name s
  pure ((), s)

/-- The backward walk over preceding lines in `_find_comment_for_construct`
(`while j >= 0 and (not lines[j][0] or lines[j][1])`).  The argument is the
reversed list of lines before the construct line; collected comments are
accumulated `insert(0, ...)`-style. -/
def collectBack : List (Chars × Option Chars) → List Chars → List Chars
  | [], acc => acc
  | (l, c) :: restRev, acc =>
    if l.isEmpty || charsTruthy c then
      collectBack restRev
        (match c with
         | some cc => if cc.isEmpty then acc else cc :: acc
         | none => acc)
    else acc

/-- The line loop of `_find_comment_for_construct`: return on the first
line containing both the keyword and the name as substrings. -/
def fccGo (keyword name : Chars) (revPrev : List (Chars × Option Chars)) :
    List (Chars × Option Chars) → Option Chars
  | [] => none
  | (line, comment) :: rest =>
    if isSubstr keyword line && isSubstr name line then
      let comments := collectBack revPrev []
      let comments := comments ++
        (match comment with
         | some c => if c.isEmpty then [] else [c]
         | none => [])
      if comments.isEmpty then none else some (joinSpace comments)
    else fccGo keyword name ((line, comment) :: revPrev) rest

def find_comment_for_construct (lines : List (Chars × Option Chars))
    (name keyword : Chars) : Option Chars :=
  if (scanFirst (matchKwNameAt keyword name) (joinNl (lines.map (·.1)))).isSome
  then fccGo keyword name [] lines
  else none

/-! ### Block extraction -/

def fqn (current_package : String) (pre nm : String) : String :=
  if current_package == "" then pre ++ nm
  else current_package ++ "." ++ pre ++ nm

/-- `_extract_services`. -/
def extract_services (lines : List (Chars × Option Chars))
    (current_package : String) : List ProtoService :=
  let content := joinNl (lines.map (·.1))
  (scanAll matchServiceAt content).map (fun blk =>
    let service_name := String.mk blk.name
    { name := service_name
      full_name := fqn current_package "" service_name
      comment := (find_comment_for_construct lines blk.name "service".data).map
        String.mk
      rpcs := (scanAll matchRpcAt blk.body).map (fun r =>
        { name := String.mk r.name
          request_type := String.mk r.request_type
          response_type := String.mk r.response_type
          request_streaming := r.request_streaming
          response_streaming := r.response_streaming
          comment := (find_comment_in_body blk.body r.name).map String.mk }) })

/-- `_extract_messages` (nested message/enum keywords are skipped in the
field loop; the parser fills no nested lists). -/
def extract_messages (lines : List (Chars × Option Chars))
    (current_package : String) (pre : String) : List ProtoMessage :=
  let content := joinNl (lines.map (·.1))
  (scanAll matchMessageAt content).map (fun blk =>
    let message_name := String.mk blk.name
    .mk message_name (fqn current_package pre message_name)
      ((scanAll matchFieldAt blk.body).filterMap (fun fr =>
        if ["message", "enum", "service"].contains (String.mk fr.type) then none
        else some
          { name := String.mk fr.name
            type := String.mk fr.type
            number := fr.number
            label := fr.label
            comment := (find_comment_in_body blk.body fr.name).map String.mk }))
      [] []
      ((find_comment_for_construct lines blk.name "message".data).map String.mk))

/-- `_extract_enums`. -/
def extract_enums (lines : List (Chars × Option Chars))
    (current_package : String) (pre : String) : List ProtoEnum :=
  let content := joinNl (lines.map (·.1))
  (scanAll matchEnumAt content).map (fun blk =>
    let enum_name := String.mk blk.name
    { name := enum_name
      full_name := fqn current_package pre enum_name
      comment := (find_comment_for_construct lines blk.name "enum".data).map
        String.mk
      values := (scanAll matchEnumValueAt blk.body).map (fun v =>
        { name := String.mk v.1
          type := "enum_value"
          number := v.2
          comment := (find_comment_in_body blk.body v.1).map String.mk }) })

/-- `ProtoParser.parse_file` / `parse_proto_file`, given the file's
content (reading the file is I/O and modelled by the caller). -/
def parseProtoFile (file_path : String) (content : String) : ProtoFile :=
  let cs := content.data
  let lines := preprocess_content cs
  let pkg := extract_package cs
  { path := file_path
    syn_version := extract_syn_version cs
    package := pkg
    imports := extract_imports cs
    services := extract_services lines pkg
    messages := extract_messages lines pkg ""
    enums := extract_enums lines pkg "" }

/-! ## `index_file` and `index_directory`

Reading a file is I/O: it is modelled by an `Except String String` input
(the file's content, or the raised read error).  `index_file` returns the
post-call index together with the re-raised exception, if any; all
mutation happens after `parse_proto_file` has returned. -/

def index_file (idx : ProtoIndex) (file_path : String)
    (readResult : Except String String) : ProtoIndex × Option String :=
  match readResult with
  | .error e => (idx, some e)
  | .ok content =>
    (index_parsed_file idx file_path (parseProtoFile file_path content), none)

/-- `ProtoIndex.index_directory`: the directory walk is I/O and is
modelled by the existence flag plus the discovered `(path, read result)`
list; a failing `index_file` is caught and logged and scanning
continues. -/
def index_directory (idx : ProtoIndex) (rootExists : Bool)
    (files : List (String × Except String String)) :
    Except String (ProtoIndex × Nat) :=
  if !rootExists then .error "Directory does not exist"
  else .ok (files.foldl (fun acc pf =>
    let r := index_file acc.1 pf.1 pf.2
    (r.1, if r.2.isNone then acc.2 + 1 else acc.2)) (idx, 0))

/-! ## Fuzzy search (`ProtoIndex.search`)

The similarity metrics come from an external library (`rapidfuzz`); they
are modelled by an abstract `Scorer` whose three functions stand for
`fuzz.WRatio`, `fuzz.partial_ratio` and `fuzz.ratio` (each a score in
`0..100`; nothing below depends on more than that).  `process.extract`
with `scorer=fuzz.WRatio` returns the `limit` best-scoring candidates in
descending score order; `list.sort(key=score, reverse=True)` is a stable
descending sort, which is modelled by insertion sort that places each
element after earlier elements of equal score. -/

structure Scorer where
  wratio : String → String → Nat
  partRatio : String → String → Nat
  plainRatio : String → String → Nat

/-- Python `s.lower()` (ASCII fragment). -/
def lowerStr (s : String) : String := String.mk (s.data.map Char.toLower)

def SIObj.commentOf : SIObj → Option String
  | .service s => s.comment
  | .message m => m.comment
  | .enum e => e.comment

def SIObj.rpcsOf : SIObj → List ProtoRPC
  | .service s => s.rpcs
  | _ => []

def SIObj.fieldsOf : SIObj → List ProtoField
  | .message m => m.fields
  | _ => []

def SIObj.valuesOf : SIObj → List ProtoField
  | .enum e => e.values
  | _ => []

/-- One result dictionary of `search` (absent keys are `none`). -/
structure SearchResult where
  name : String
  kind : String
  file : String
  score : Nat
  match_type : String
  rpcs : Option (List String) := none
  rpc_count : Option Nat := none
  fields : Option (List String) := none
  field_count : Option Nat := none
  values : Option (List String) := none
  value_count : Option Nat := none
  comment : Option String := none
  matched_field : Option String := none
  matched_rpc : Option String := none
deriving Repr, DecidableEq

/-- Stable descending insertion for the model of `process.extract`. -/
def insertScored (x : Nat × SearchEntry) :
    List (Nat × SearchEntry) → List (Nat × SearchEntry)
  | [] => [x]
  | y :: ys => if y.1 < x.1 then x :: y :: ys else y :: insertScored x ys

/-- `process.extract(query, [e.full_name for e in entries], scorer=WRatio,
limit=lim)` with the matched entry substituted for its index. -/
def processExtract (sc : Scorer) (query : String) (entries : List SearchEntry)
    (lim : Nat) : List (Nat × SearchEntry) :=
  ((entries.map (fun e => (sc.wratio query e.full_name, e))).foldl
    (fun acc x => insertScored x acc) []).take lim

/-- The `'name'`-phase result dictionary with its kind-specific metadata. -/
def mkNameResult (e : SearchEntry) (score : Nat) : SearchResult :=
  { name := e.full_name
    kind := e.kind
    file := e.file
    score := score
    match_type := "name"
    rpcs := if e.kind == "service" then some (e.obj.rpcsOf.map (·.name)) else none
    rpc_count := if e.kind == "service" then some e.obj.rpcsOf.length else none
    fields :=
      if e.kind == "message" then some (e.obj.fieldsOf.map (·.name)) else none
    field_count := if e.kind == "message" then some e.obj.fieldsOf.length else none
    values :=
      if e.kind == "enum" then some (e.obj.valuesOf.map (·.name)) else none
    value_count := if e.kind == "enum" then some e.obj.valuesOf.length else none
    comment := if optTruthy e.obj.commentOf then e.obj.commentOf else none }

/-- The first phase of `search`: walk the extract output, keep scores
`>= min_score`, deduplicate by fqname through `seen`. -/
def searchPhase1 (min_score : Nat) :
    List (Nat × SearchEntry) → List String → List SearchResult × List String
  | [], seen => ([], seen)
  | se :: rest, seen =>
    if se.1 < min_score then searchPhase1 min_score rest seen
    else if seen.contains se.2.full_name then searchPhase1 min_score rest seen
    else
      let p := searchPhase1 min_score rest (se.2.full_name :: seen)
      (mkNameResult se.2 se.1 :: p.1, p.2)

def mkCommentResult (e : SearchEntry) (score : Nat) : SearchResult :=
  { name := e.full_name
    kind := e.kind
    file := e.file
    score := score
    match_type := "comment"
    comment := e.obj.commentOf }

def mkFieldResult (e : SearchEntry) (score : Nat) (fname : String) :
    SearchResult :=
  { name := e.full_name
    kind := e.kind
    file := e.file
    score := score
    match_type := "field"
    matched_field := some fname
    fields := some (e.obj.fieldsOf.map (·.name))
    field_count := some e.obj.fieldsOf.length }

def mkRpcResult (e : SearchEntry) (score : Nat) (rname : String) :
    SearchResult :=
  { name := e.full_name
    kind := e.kind
    file := e.file
    score := score
    match_type := "rpc"
    matched_rpc := some rname
    rpcs := some (e.obj.rpcsOf.map (·.name))
    rpc_count := some e.obj.rpcsOf.length }

/-- The second phase of `search`: comments, then message field names, then
service RPC names, first hit per entry, still deduplicated by `seen`. -/
def searchPhase2 (sc : Scorer) (query : String) (min_score : Nat) :
    List SearchEntry → List String → List SearchResult
  | [], _ => []
  | e :: rest, seen =>
    if seen.contains e.full_name then searchPhase2 sc query min_score rest seen
    else if optTruthy e.obj.commentOf
        && min_score ≤ sc.partRatio (lowerStr query)
            (lowerStr (e.obj.commentOf.getD "")) then
      mkCommentResult e
          (sc.partRatio (lowerStr query) (lowerStr (e.obj.commentOf.getD ""))) ::
        searchPhase2 sc query min_score rest (e.full_name :: seen)
    else
      match (if e.kind == "message" then
          e.obj.fieldsOf.find?
            (fun f => min_score ≤ sc.plainRatio (lowerStr query) (lowerStr f.name))
        else none) with
      | some f =>
        mkFieldResult e (sc.plainRatio (lowerStr query) (lowerStr f.name)) f.name ::
          searchPhase2 sc query min_score rest (e.full_name :: seen)
      | none =>
        match (if e.kind == "service" then
            e.obj.rpcsOf.find?
              (fun r => min_score ≤ sc.plainRatio (lowerStr query) (lowerStr r.name))
          else none) with
        | some r =>
          mkRpcResult e (sc.plainRatio (lowerStr query) (lowerStr r.name)) r.name ::
            searchPhase2 sc query min_score rest (e.full_name :: seen)
        | none => searchPhase2 sc query min_score rest seen

/-- Stable insertion for `results.sort(key=lambda x: x['score'],
reverse=True)`: an element goes after earlier elements of equal score. -/
def insertByScore (r : SearchResult) : List SearchResult → List SearchResult
  | [] => [r]
  | x :: xs => if x.score < r.score then r :: x :: xs else x :: insertByScore r xs

def sortByScoreDesc (l : List SearchResult) : List SearchResult :=
  l.foldl (fun acc r => insertByScore r acc) []

/-- The merged, unsorted result list of `search` (phase 1 followed by
phase 2, sharing one `seen` set). -/
def searchPre (sc : Scorer) (idx : ProtoIndex) (query : String)
    (limit : Nat) (min_score : Nat) : List SearchResult :=
  let extracted := processExtract sc query idx.searchEntries (limit * 2)
  let p1 := searchPhase1 min_score extracted []
  p1.1 ++ searchPhase2 sc query min_score idx.searchEntries p1.2

/-- `ProtoIndex.search`. -/
def search (sc : Scorer) (idx : ProtoIndex) (query : String)
    (limit : Nat := 20) (min_score : Nat := 60) : List SearchResult :=
  if query == "" then []
  else (sortByScoreDesc (searchPre sc idx query limit min_score)).take limit

/-! ## Concrete corpora used to settle the claims -/

/-- The cyclic message `A { A self = 1; }` (empty package). -/
def msgA : ProtoMessage :=
  .mk "A" "A" [{ name := "self", type := "A", number := 1 }] [] [] none

def fileA : ProtoFile := { path := "a.proto", messages := [msgA] }

def idxA : ProtoIndex := index_parsed_file emptyIndex "a.proto" fileA

/-- Two file contents defining the same fully-qualified name `p.M` with
observably different bodies. -/
def cMM1 : String := "package p;\nmessage M \x7b string x = 1; \x7d"

def cMM2 : String := "package p;\nmessage M \x7b int32 y = 1; \x7d"

def pfM1 : ProtoFile := parseProtoFile "m1.proto" cMM1

def pfM2 : ProtoFile := parseProtoFile "m2.proto" cMM2

/-- The two parsed entities for `p.M`. -/
def msgM1 : ProtoMessage :=
  .mk "M" "p.M" [{ name := "x", type := "string", number := 1 }] [] [] none

def msgM2 : ProtoMessage :=
  .mk "M" "p.M" [{ name := "y", type := "int32", number := 1 }] [] [] none

def idxM1 : ProtoIndex := (index_file emptyIndex "m1.proto" (.ok cMM1)).1

/-- `m1.proto` ingested, then `m2.proto` overwriting the entry for `p.M`. -/
def idxMM : ProtoIndex := (index_file idxM1 "m2.proto" (.ok cMM2)).1

/-- The round-trip corpus of the spec's §8. -/
def c3Content : String :=
  "package api.v1;\nmessage User \x7b string name = 1; UserRole role = 2; \x7d\nenum UserRole \x7b ADMIN = 0; MEMBER = 1; \x7d"

def c3Idx : ProtoIndex := (index_file emptyIndex "user.proto" (.ok c3Content)).1

/-- A directory listing with one well-formed and one unreadable file. -/
def c9Files : List (String × Except String String) :=
  [("user.proto", .ok c3Content), ("bad.proto", .error "read failed")]

/-- Well-formedness of an index state: the four tables have no duplicate
keys (true of every state reachable through `dSet`/`dPop`). -/
def WFIndex (idx : ProtoIndex) : Prop :=
  (dKeys idx.files).Nodup ∧ (dKeys idx.services).Nodup ∧
    (dKeys idx.messages).Nodup ∧ (dKeys idx.enums).Nodup

/-! ## The comment pre-pass as worded by the claim (for C6)

`preprocessClaimed_go` renders the claim's wording exactly: a line whose
stripped content is empty (and that has a trailing `//` comment at all) is
comment-only and its comment text accumulates; any other line is emitted,
attached to the space-joined accumulated comments followed by its own
trailing inline comment.  `preprocessAmended_go` is the amended wording: a
comment-only line must have a *nonempty* comment text, and an emitted
line's own trailing comment is joined only when nonempty. -/

def preprocessClaimed_go : List Chars → List Chars → List (Chars × Option Chars)
  | [], _ => []
  | line :: rest, acc =>
    let comment : Option Chars := (splitAtComment line).map (fun p => pyStrip p.2)
    let lwc : Chars :=
      pyStrip (match splitAtComment line with | some p => p.1 | none => line)
    if lwc.isEmpty && comment.isSome then
      preprocessClaimed_go rest (acc ++ [comment.getD []])
    else
      let pieces := acc ++ (match comment with | some c => [c] | none => [])
      (lwc, if pieces.isEmpty then none else some (joinSpace pieces)) ::
        preprocessClaimed_go rest []

def preprocessClaimed (content : Chars) : List (Chars × Option Chars) :=
  preprocessClaimed_go (splitOnNl content) []

def preprocessAmended_go : List Chars → List Chars → List (Chars × Option Chars)
  | [], _ => []
  | line :: rest, acc =>
    let comment : Option Chars := (splitAtComment line).map (fun p => pyStrip p.2)
    let lwc : Chars :=
      pyStrip (match splitAtComment line with | some p => p.1 | none => line)
    if lwc.isEmpty && charsTruthy comment then
      preprocessAmended_go rest (acc ++ [comment.getD []])
    else
      let pieces := acc ++ (if charsTruthy comment then [comment.getD []] else [])
      (lwc, if pieces.isEmpty then none else some (joinSpace pieces)) ::
        preprocessAmended_go rest []

def preprocessAmended (content : Chars) : List (Chars × Option Chars) :=
  preprocessAmended_go (splitOnNl content) []

/-- The input separating the claimed from the implemented pre-pass: a
comment line, a bare `//` (empty comment text), then a code line. -/
def c6Input : Chars := "// a\n//\nx".data

/-- A concrete scorer (every comparison scores 80), standing in for the
external fuzzy-matching library in concrete evaluations. -/
def constScorer : Scorer :=
  ⟨fun _ _ => 80, fun _ _ => 80, fun _ _ => 80⟩

/-! # Theorems

First a toolbox of lemmas about the ordered-dictionary model, then one
theorem per claim (with counterexamples and witnesses where required). -/

theorem dGet_cons {α : Type} (kv : String × α) (rest : List (String × α))
    (k : String) :
    dGet (kv :: rest) k = if kv.1 = k then some kv.2 else dGet rest k := by
  by_cases h : kv.1 = k <;> simp [dGet, List.find?_cons, h]

theorem dPop_cons {α : Type} (kv : String × α) (rest : List (String × α))
    (k : String) :
    dPop (kv :: rest) k = if kv.1 = k then rest else kv :: dPop rest k := by
  by_cases h : kv.1 = k <;> simp [dPop, h]

theorem dSet_cons {α : Type} (kv : String × α) (rest : List (String × α))
    (k : String) (v : α) :
    dSet (kv :: rest) k v =
      if kv.1 = k then (k, v) :: rest else kv :: dSet rest k v := by
  by_cases h : kv.1 = k <;> simp [dSet, h]

theorem dGet_eq_none_of_not_mem {α : Type} {d : List (String × α)} {k : String}
    (h : k ∉ dKeys d) : dGet d k = none := by
  induction d with
  | nil => rfl
  | cons kv rest ih =>
    simp only [dKeys, List.map_cons, List.mem_cons, not_or] at h
    rw [dGet_cons, if_neg (Ne.symm h.1)]
    exact ih (by simpa [dKeys] using h.2)

theorem dPop_eq_of_not_mem {α : Type} {d : List (String × α)} {k : String}
    (h : k ∉ dKeys d) : dPop d k = d := by
  induction d with
  | nil => rfl
  | cons kv rest ih =>
    simp only [dKeys, List.map_cons, List.mem_cons, not_or] at h
    rw [dPop_cons, if_neg (Ne.symm h.1)]
    rw [ih (by simpa [dKeys] using h.2)]

theorem dGet_dPop_ne {α : Type} (d : List (String × α)) {k k' : String}
    (h : k ≠ k') : dGet (dPop d k') k = dGet d k := by
  induction d with
  | nil => rfl
  | cons kv rest ih =>
    by_cases hk : kv.1 = k'
    · rw [dPop_cons, if_pos hk, dGet_cons, if_neg (by rw [hk]; exact Ne.symm h)]
    · rw [dPop_cons, if_neg hk, dGet_cons, dGet_cons, ih]

theorem dGet_dPop_self {α : Type} (d : List (String × α)) (k : String)
    (h : (dKeys d).Nodup) : dGet (dPop d k) k = none := by
  induction d with
  | nil => rfl
  | cons kv rest ih =>
    simp only [dKeys, List.map_cons, List.nodup_cons] at h
    by_cases hk : kv.1 = k
    · rw [dPop_cons, if_pos hk]
      exact dGet_eq_none_of_not_mem (by rw [← hk]; exact h.1)
    · rw [dPop_cons, if_neg hk, dGet_cons, if_neg hk]
      exact ih h.2

theorem dKeys_dPop_sublist {α : Type} (d : List (String × α)) (k : String) :
    List.Sublist (dKeys (dPop d k)) (dKeys d) := by
  induction d with
  | nil => simp [dPop]
  | cons kv rest ih =>
    by_cases hk : kv.1 = k
    · rw [dPop_cons, if_pos hk]
      exact List.sublist_cons_self _ _
    · rw [dPop_cons, if_neg hk]
      simp only [dKeys, List.map_cons]
      exact ih.cons₂ _

theorem nodup_dKeys_dPop {α : Type} {d : List (String × α)} (k : String)
    (h : (dKeys d).Nodup) : (dKeys (dPop d k)).Nodup :=
  h.sublist (dKeys_dPop_sublist d k)

theorem dGet_dPop_none {α : Type} {d : List (String × α)} {k : String}
    (k' : String) (h : dGet d k = none) : dGet (dPop d k') k = none := by
  induction d with
  | nil => rfl
  | cons kv rest ih =>
    rw [dGet_cons] at h
    by_cases hkv : kv.1 = k
    · rw [if_pos hkv] at h; exact absurd h (by simp)
    · rw [if_neg hkv] at h
      rw [dPop_cons]
      by_cases hk2 : kv.1 = k'
      · rw [if_pos hk2]; exact h
      · rw [if_neg hk2, dGet_cons, if_neg hkv]; exact ih h

theorem foldl_dPop_nodup {α β : Type} (f : β → String) (l : List β)
    (d : List (String × α)) (h : (dKeys d).Nodup) :
    (dKeys (l.foldl (fun acc x => dPop acc (f x)) d)).Nodup := by
  induction l generalizing d with
  | nil => exact h
  | cons x rest ih => exact ih _ (nodup_dKeys_dPop _ h)

theorem foldl_dPop_preserve_none {α β : Type} (f : β → String) (l : List β)
    {d : List (String × α)} {k : String} (h : dGet d k = none) :
    dGet (l.foldl (fun acc x => dPop acc (f x)) d) k = none := by
  induction l generalizing d with
  | nil => exact h
  | cons x rest ih => exact ih (dGet_dPop_none _ h)

theorem foldl_dPop_dGet_of_mem {α β : Type} (f : β → String) (l : List β)
    (d : List (String × α)) (k : String) (hnd : (dKeys d).Nodup)
    (hk : ∃ x ∈ l, f x = k) :
    dGet (l.foldl (fun acc x => dPop acc (f x)) d) k = none := by
  induction l generalizing d with
  | nil => simp at hk
  | cons x rest ih =>
    simp only [List.mem_cons] at hk
    obtain ⟨y, hy, hfy⟩ := hk
    rcases hy with hy | hy
    · subst hy
      simp only [List.foldl_cons]
      refine foldl_dPop_preserve_none f rest ?_
      rw [hfy]
      exact dGet_dPop_self d k hnd
    · exact ih _ (nodup_dKeys_dPop _ hnd) ⟨y, hy, hfy⟩

theorem foldl_dPop_dGet_of_not_mem {α β : Type} (f : β → String) (l : List β)
    (d : List (String × α)) (k : String) (hk : ∀ x ∈ l, f x ≠ k) :
    dGet (l.foldl (fun acc x => dPop acc (f x)) d) k = dGet d k := by
  induction l generalizing d with
  | nil => rfl
  | cons x rest ih =>
    simp only [List.foldl_cons]
    rw [ih _ (fun y hy => hk y (List.mem_cons_of_mem _ hy))]
    exact dGet_dPop_ne d (fun h => hk x (List.mem_cons_self x rest) h.symm)

/-- C1 counterexample: in `idxMM` the table entry for `p.M` is the later
document's entity `msgM2` (not `m1.proto`'s `msgM1`), yet evicting
`m1.proto` removes it — the claimed "only when still the evicted document's
own entity" guard does not exist in `remove_file`. -/
theorem c1_overwritten_entry_evicted :
    dGet idxMM.messages "p.M" = some msgM2 ∧
    msgM2 ≠ msgM1 ∧
    dGet (remove_file idxMM "m1.proto").messages "p.M" = none := by
  refine ⟨rfl, ?_, rfl⟩
  intro h
  have h2 := congrArg ProtoMessage.fields h
  simp only [msgM2, msgM1, ProtoMessage.fields] at h2
  exact absurd h2 (by decide)

/-- C1 (amended): for every well-formed index state and indexed path,
`remove_file` removes every Service/Message/Enum fqname owned by the
evicted document from the lookup tables unconditionally — including an
entry that was overwritten by a later-ingested document with the same
fqname — while entries under fqnames not owned by the evicted document are
left untouched. -/
theorem c1_remove_file_unconditional (idx : ProtoIndex) (p : String)
    (pf : ProtoFile) (hWF : WFIndex idx) (hGet : dGet idx.files p = some pf) :
    (∀ s ∈ pf.services, dGet (remove_file idx p).services s.full_name = none) ∧
    (∀ m ∈ pf.messages, dGet (remove_file idx p).messages m.full_name = none) ∧
    (∀ e ∈ pf.enums, dGet (remove_file idx p).enums e.full_name = none) ∧
    (∀ k : String, (∀ s ∈ pf.services, s.full_name ≠ k) →
      dGet (remove_file idx p).services k = dGet idx.services k) ∧
    (∀ k : String, (∀ m ∈ pf.messages, m.full_name ≠ k) →
      dGet (remove_file idx p).messages k = dGet idx.messages k) ∧
    (∀ k : String, (∀ e ∈ pf.enums, e.full_name ≠ k) →
      dGet (remove_file idx p).enums k = dGet idx.enums k) := by
  obtain ⟨-, hs, hm, he⟩ := hWF
  simp only [remove_file, hGet]
  exact ⟨fun s hmem => foldl_dPop_dGet_of_mem _ _ _ _ hs ⟨s, hmem, rfl⟩,
    fun m hmem => foldl_dPop_dGet_of_mem _ _ _ _ hm ⟨m, hmem, rfl⟩,
    fun e hmem => foldl_dPop_dGet_of_mem _ _ _ _ he ⟨e, hmem, rfl⟩,
    fun k hk => foldl_dPop_dGet_of_not_mem _ _ _ _ hk,
    fun k hk => foldl_dPop_dGet_of_not_mem _ _ _ _ hk,
    fun k hk => foldl_dPop_dGet_of_not_mem _ _ _ _ hk⟩

theorem c1_remove_file_unconditional_witness :
    dGet (remove_file idxMM "m1.proto").messages "p.M" = none := by
  have h := c1_remove_file_unconditional idxMM "m1.proto" pfM1 (by
    constructor
    · decide
    constructor
    · decide
    constructor
    · decide
    · decide) rfl
  exact h.2.1 msgM1 (by
    rw [show pfM1.messages = [msgM1] from rfl]
    exact List.mem_singleton_self _)

/-- C10: if `index_file` raises (the read/parse step fails), the index is
left entirely unchanged, because every mutation happens only after
`parse_proto_file` returns successfully. -/
theorem c10_index_file_atomic (idx : ProtoIndex) (p : String)
    (readResult : Except String String) (e : String)
    (h : (index_file idx p readResult).2 = some e) :
    (index_file idx p readResult).1 = idx ∧ readResult = .error e := by
  cases readResult with
  | error e2 =>
    simp only [index_file] at h
    have he : e2 = e := by simpa using h
    subst he
    exact ⟨rfl, rfl⟩
  | ok content => simp [index_file] at h

theorem c10_index_file_atomic_witness :
    (index_file emptyIndex "bad.proto" (Except.error "read failed")).1 =
      emptyIndex :=
  (c10_index_file_atomic emptyIndex "bad.proto" (.error "read failed")
    "read failed" rfl).1

/-- C3: parsing and indexing the `api.v1` corpus
(`message User { string name = 1; UserRole role = 2; }` with top-level
`enum UserRole { ADMIN = 0; MEMBER = 1; }`), then `get_message("User")`,
returns fqname `api.v1.User`, the two fields in declaration order, and a
`resolved_types` entry for `"UserRole"` of kind `enum` with two values. -/
theorem c3_parse_query_round_trip :
    get_message c3Idx "User" true 10 = some
      { name := "User"
        full_name := "api.v1.User"
        comment := none
        fields := [⟨"name", "string", 1, none, none⟩,
          ⟨"role", "UserRole", 2, none, none⟩]
        file := some "user.proto"
        resolved_types := some [("UserRole",
          .enum "UserRole" "api.v1.UserRole" none
            [⟨"ADMIN", 0, none⟩, ⟨"MEMBER", 1, none⟩] (some "user.proto"))] } :=
  rfl

/-- C8: with `max_depth = 0`, `get_message` returns a result without a
`resolved_types` key, and `_resolve_message_types` returns an empty map
without touching the visited set (no recursion at all). -/
theorem c8_depth_zero :
    (∀ (idx : ProtoIndex) (name : String) (mv : MessageView),
        get_message idx name true 0 = some mv → mv.resolved_types = none) ∧
    (∀ (idx : ProtoIndex) (m : ProtoMessage) (visited : List String),
        resolve_message_types idx m 0 visited = ([], visited)) := by
  refine ⟨?_, fun idx m visited => rfl⟩
  intro idx name mv h
  unfold get_message at h
  split at h
  · rename_i hc
    exact absurd hc (by decide)
  · dsimp only [] at h
    split at h
    · simp at h
    · simp only [Option.some.injEq] at h
      rw [← h]

theorem c8_depth_zero_witness :
    MessageView.resolved_types
      { name := "A"
        full_name := "A"
        comment := none
        fields := [⟨"self", "A", 1, none, none⟩]
        file := some "a.proto"
        resolved_types := none } = none :=
  c8_depth_zero.1 idxA "A" _ rfl

theorem index_directory_go_count (files : List (String × Except String String)) :
    ∀ (idx : ProtoIndex) (c : Nat),
      (files.foldl (fun acc pf =>
        let r := index_file acc.1 pf.1 pf.2
        (r.1, if r.2.isNone then acc.2 + 1 else acc.2)) (idx, c)).2 =
        c + files.countP (fun f => f.2.isOk) := by
  induction files with
  | nil => intro idx c; simp
  | cons f rest ih =>
    intro idx c
    rw [List.foldl_cons]
    change (List.foldl (fun acc pf =>
        let r := index_file acc.1 pf.1 pf.2
        (r.1, if r.2.isNone then acc.2 + 1 else acc.2))
      ((index_file idx f.1 f.2).1,
        if (index_file idx f.1 f.2).2.isNone then c + 1 else c) rest).2 =
      c + List.countP (fun f => f.2.isOk) (f :: rest)
    rw [List.countP_cons]
    cases hf : f.2 with
    | ok content =>
      have h2 : (index_file idx f.1 (Except.ok content)).2 = none := rfl
      rw [h2]
      simp only [Option.isNone_none, if_true]
      rw [ih]
      simp [Except.isOk, Except.toBool]
      omega
    | error e =>
      have h2 : (index_file idx f.1 (Except.error e)).2 = some e := rfl
      rw [h2]
      simp only [Option.isNone_some, Bool.false_eq_true, if_false]
      rw [ih]
      simp [Except.isOk, Except.toBool]

/-- C9: when the existence check passes, `index_directory` never
propagates a failure and returns exactly the number of files whose
read/parse succeeded; concretely, for a directory with one well-formed and
one unreadable file it returns `1`, the resulting index is exactly the one
obtained from the well-formed file alone (whose entities are queryable),
and the malformed file contributes no file entry and no search entries. -/
theorem c9_bulk_isolation :
    (∀ (idx : ProtoIndex) (files : List (String × Except String String)),
        (index_directory idx true files).map (fun p => p.2) =
          .ok (files.countP (fun f => f.2.isOk))) ∧
    index_directory emptyIndex true c9Files = .ok (c3Idx, 1) ∧
    (get_message c3Idx "User" true 10).isSome = true ∧
    dGet c3Idx.files "bad.proto" = none ∧
    c3Idx.searchEntries.map (fun e => e.file) = ["user.proto", "user.proto"] := by
  refine ⟨?_, rfl, rfl, rfl, rfl⟩
  intro idx files
  simp only [index_directory, Bool.not_true, Bool.false_eq_true, if_false,
    Except.map]
  rw [index_directory_go_count]
  simp

theorem joinSpace_cons_cons (x y : Chars) (t : List Chars) :
    joinSpace (x :: y :: t) = x ++ ' ' :: joinSpace (y :: t) := rfl

theorem joinSpace_cons_append_singleton (a : Chars) (as : List Chars) (c : Chars) :
    joinSpace (a :: (as ++ [c])) = joinSpace (a :: as) ++ ' ' :: c := by
  induction as generalizing a with
  | nil => rfl
  | cons y t ih =>
    show joinSpace (a :: y :: (t ++ [c])) =
      (a ++ ' ' :: joinSpace (y :: t)) ++ ' ' :: c
    rw [joinSpace_cons_cons, ih y]
    simp

theorem joinSpace_cons_ne_nil (a : Chars) (as : List Chars) (h : a ≠ []) :
    joinSpace (a :: as) ≠ [] := by
  cases as with
  | nil => simpa [joinSpace] using h
  | cons y t =>
    rw [joinSpace_cons_cons]
    simp

theorem preprocess_go_eq_amended :
    ∀ (lines : List Chars) (acc : List Chars), (∀ c ∈ acc, c ≠ []) →
      preprocess_go lines acc = preprocessAmended_go lines acc := by
  intro lines
  induction lines with
  | nil => intro acc _; rfl
  | cons line rest ih =>
    intro acc hacc
    simp only [preprocess_go, preprocessAmended_go]
    generalize hcmt : (splitAtComment line).map (fun p => pyStrip p.2) = cmt
    by_cases hcond : ((pyStrip (match splitAtComment line with
        | some p => p.1
        | none => line)).isEmpty && charsTruthy cmt) = true
    · rw [if_pos hcond, if_pos hcond]
      apply ih
      intro c hc
      rcases List.mem_append.mp hc with h | h
      · exact hacc c h
      · have hct : charsTruthy cmt = true := by
          rw [Bool.and_eq_true] at hcond
          exact hcond.2
        simp only [List.mem_singleton] at h
        subst h
        cases cmt with
        | none => simp [charsTruthy] at hct
        | some cc => simpa [charsTruthy] using hct
    · rw [if_neg hcond, if_neg hcond]
      rw [ih [] (by simp)]
      congr 1
      congr 1
      cases cmt with
      | none =>
        cases acc with
        | nil => simp [charsTruthy]
        | cons a as =>
          have hne := joinSpace_cons_ne_nil a as (hacc a (by simp))
          simp [charsTruthy, hne]
      | some cc =>
        by_cases hcc : cc = []
        · subst hcc
          cases acc with
          | nil => simp [charsTruthy]
          | cons a as =>
            have hne := joinSpace_cons_ne_nil a as (hacc a (by simp))
            simp [charsTruthy, hne]
        · cases acc with
          | nil => simp [charsTruthy, hcc, joinSpace]
          | cons a as =>
            have hne := joinSpace_cons_ne_nil a as (hacc a (by simp))
            simp [charsTruthy, hcc, hne, joinSpace_cons_append_singleton]

/-- C6 counterexample: on the input `"// a\n//\nx"` the claimed pre-pass
(a line is comment-only whenever its stripped content is empty) disagrees
with `_preprocess_content`: the bare `//` line has empty comment text, so
the code emits it as a regular line carrying the accumulated comment
(resetting the accumulator), instead of accumulating it. -/
theorem c6_empty_comment_line_divergence :
    preprocess_content c6Input ≠ preprocessClaimed c6Input := by decide

/-- C6 (amended): scanning line by line, a line whose content is empty
after stripping a trailing `//` comment *and whose comment text is
nonempty* is a comment-only line whose comment text accumulates; the first
subsequent other line is attached to the space-joined concatenation of the
accumulated comment lines (accumulated first) plus its own trailing inline
comment when that is nonempty, and the accumulator is reset after each
attachment. -/
theorem c6_comment_prepass :
    ∀ content : Chars, preprocess_content content = preprocessAmended content := by
  intro content
  unfold preprocess_content preprocessAmended
  exact preprocess_go_eq_amended (splitOnNl content) [] (by simp)

theorem dKeys_append {α : Type} (d1 d2 : List (String × α)) :
    dKeys (d1 ++ d2) = dKeys d1 ++ dKeys d2 := by
  simp [dKeys]

theorem dSet_eq_append_of_not_mem {α : Type} {d : List (String × α)}
    {k : String} (v : α) (h : k ∉ dKeys d) : dSet d k v = d ++ [(k, v)] := by
  induction d with
  | nil => rfl
  | cons kv rest ih =>
    simp only [dKeys, List.map_cons, List.mem_cons, not_or] at h
    rw [dSet_cons, if_neg (Ne.symm h.1)]
    rw [ih (by simpa [dKeys] using h.2)]
    simp

theorem dUpd_eq_append {α : Type} {kvs : List (String × α)} :
    ∀ {d : List (String × α)}, (∀ k ∈ dKeys kvs, k ∉ dKeys d) →
      (dKeys kvs).Nodup → dUpd d kvs = d ++ kvs := by
  induction kvs with
  | nil => intro d _ _; simp [dUpd]
  | cons kv rest ih =>
    intro d hdis hnd
    show dUpd (dSet d kv.1 kv.2) rest = d ++ kv :: rest
    simp only [dKeys, List.map_cons, List.nodup_cons] at hnd
    rw [dSet_eq_append_of_not_mem _ (hdis kv.1 (by simp [dKeys]))]
    rw [ih ?_ hnd.2]
    · simp
    · intro k hk
      rw [dKeys_append]
      simp only [List.mem_append, not_or]
      refine ⟨hdis k (by simp [dKeys]; right; exact (by simpa [dKeys] using hk)), ?_⟩
      simp only [dKeys, List.map_cons, List.map_nil, List.mem_singleton]
      intro hkk
      subst hkk
      exact hnd.1 (by simpa [dKeys] using hk)

/-- The shared-visited-set invariant of one resolution step: the produced
map's keys avoid the incoming visited set and repeat no key, and the
outgoing visited set extends the incoming one and covers every produced
key. -/
def ResolveInv (visited : List String)
    (p : List (String × ResolvedDef) × List String) : Prop :=
  (∀ k ∈ dKeys p.1, k ∉ visited) ∧ (dKeys p.1).Nodup ∧
    (∀ k ∈ visited, k ∈ p.2) ∧ (∀ k ∈ dKeys p.1, k ∈ p.2)

theorem resolve_fields_inv (idx : ProtoIndex)
    (rn : ProtoMessage → List String → List (String × ResolvedDef) × List String)
    (hrn : ∀ m v, ResolveInv v (rn m v)) (ctx : String) :
    ∀ (fs : List ProtoField) (visited : List String),
      ResolveInv visited (resolve_fields idx rn ctx fs visited) := by
  intro fs
  induction fs with
  | nil =>
    intro visited
    exact ⟨by simp [resolve_fields, dKeys], by simp [resolve_fields, dKeys],
      fun k hk => hk, by simp [resolve_fields, dKeys]⟩
  | cons f rest ih =>
    intro visited
    simp only [resolve_fields]
    by_cases hprim : primitiveTypes.contains f.type = true
    · rw [if_pos hprim]; exact ih visited
    · rw [if_neg hprim]
      by_cases hvis : visited.contains f.type = true
      · rw [if_pos hvis]; exact ih visited
      · rw [if_neg hvis]
        have hftv : f.type ∉ visited := by simpa using hvis
        cases hfind : find_message_by_type idx f.type ctx with
        | some msg =>
          obtain ⟨hn1, hn2, hn3, hn4⟩ := hrn msg (f.type :: visited)
          obtain ⟨hr1, hr2, hr3, hr4⟩ := ih (rn msg (f.type :: visited)).2
          have hvn : ∀ k ∈ visited, k ∈ (rn msg (f.type :: visited)).2 :=
            fun k hk => hn3 k (List.mem_cons_of_mem _ hk)
          have hftn : f.type ∈ (rn msg (f.type :: visited)).2 :=
            hn3 f.type (List.mem_cons_self _ _)
          have hA : ∀ k ∈ dKeys (rn msg (f.type :: visited)).1,
              k ≠ f.type ∧ k ∉ visited := by
            intro k hk
            have := hn1 k hk
            simp only [List.mem_cons, not_or] at this
            exact this
          have hB : ∀ k ∈ dKeys (resolve_fields idx rn ctx rest
              (rn msg (f.type :: visited)).2).1,
              k ≠ f.type ∧ k ∉ dKeys (rn msg (f.type :: visited)).1 ∧
                k ∉ visited := by
            intro k hk
            refine ⟨fun hkk => hr1 k hk (hkk ▸ hftn),
              fun hkm => hr1 k hk (hn4 k hkm), fun hkv => hr1 k hk (hvn k hkv)⟩
          have hinner : dUpd [(f.type, resolvedOfMessage idx msg)]
              (rn msg (f.type :: visited)).1 =
              (f.type, resolvedOfMessage idx msg) ::
                (rn msg (f.type :: visited)).1 := by
            rw [dUpd_eq_append ?_ hn2]
            · rfl
            · intro k hk
              simp only [dKeys, List.map_cons, List.map_nil, List.mem_singleton]
              exact (hA k hk).1
          have houter : dUpd ((f.type, resolvedOfMessage idx msg) ::
              (rn msg (f.type :: visited)).1)
              (resolve_fields idx rn ctx rest (rn msg (f.type :: visited)).2).1 =
              ((f.type, resolvedOfMessage idx msg) ::
                (rn msg (f.type :: visited)).1) ++
              (resolve_fields idx rn ctx rest (rn msg (f.type :: visited)).2).1 := by
            refine dUpd_eq_append ?_ hr2
            intro k hk
            simp only [dKeys, List.map_cons, List.mem_cons, not_or]
            exact ⟨(hB k hk).1, (hB k hk).2.1⟩
          dsimp only []
          rw [hinner, houter]
          refine ⟨?_, ?_, ?_, ?_⟩
          · intro k hk
            simp only [dKeys, List.map_append, List.map_cons, List.mem_append,
              List.mem_cons] at hk
            rcases hk with (hk | hk) | hk
            · subst hk; exact hftv
            · exact (hA k hk).2
            · exact (hB k hk).2.2
          · simp only [dKeys, List.map_append, List.map_cons, List.cons_append]
            rw [List.nodup_cons]
            constructor
            · simp only [List.mem_append, not_or]
              exact ⟨fun hm => (hA _ hm).1 rfl, fun hm => (hB _ hm).1 rfl⟩
            · exact hn2.append hr2 (List.disjoint_left.mpr
                (fun a ha hb => (hB a hb).2.1 ha))
          · exact fun k hk => hr3 k (hvn k hk)
          · intro k hk
            simp only [dKeys, List.map_append, List.map_cons, List.mem_append,
              List.mem_cons] at hk
            rcases hk with (hk | hk) | hk
            · subst hk; exact hr3 _ hftn
            · exact hr3 k (hn4 k hk)
            · exact hr4 k hk
        | none =>
          cases henum : find_enum_by_type idx f.type ctx with
          | some en =>
            obtain ⟨hr1, hr2, hr3, hr4⟩ := ih (f.type :: visited)
            have hB : ∀ k ∈ dKeys (resolve_fields idx rn ctx rest
                (f.type :: visited)).1, k ≠ f.type ∧ k ∉ visited := by
              intro k hk
              have := hr1 k hk
              simp only [List.mem_cons, not_or] at this
              exact this
            have hinner : dUpd [(f.type, resolvedOfEnum idx en)]
                (resolve_fields idx rn ctx rest (f.type :: visited)).1 =
                (f.type, resolvedOfEnum idx en) ::
                  (resolve_fields idx rn ctx rest (f.type :: visited)).1 := by
              rw [dUpd_eq_append ?_ hr2]
              · rfl
              · intro k hk
                simp only [dKeys, List.map_cons, List.map_nil, List.mem_singleton]
                exact (hB k hk).1
            dsimp only []
            rw [hinner]
            refine ⟨?_, ?_, ?_, ?_⟩
            · intro k hk
              simp only [dKeys, List.map_cons, List.mem_cons] at hk
              rcases hk with hk | hk
              · subst hk; exact hftv
              · exact (hB k hk).2
            · simp only [dKeys, List.map_cons]
              rw [List.nodup_cons]
              exact ⟨fun hm => (hB _ hm).1 rfl, hr2⟩
            · exact fun k hk => hr3 k (List.mem_cons_of_mem _ hk)
            · intro k hk
              simp only [dKeys, List.map_cons, List.mem_cons] at hk
              rcases hk with hk | hk
              · subst hk; exact hr3 _ (List.mem_cons_self _ _)
              · exact hr4 k hk
          | none =>
            obtain ⟨hr1, hr2, hr3, hr4⟩ := ih (f.type :: visited)
            dsimp only []
            refine ⟨?_, hr2, ?_, hr4⟩
            · intro k hk
              have := hr1 k hk
              simp only [List.mem_cons, not_or] at this
              exact this.2
            · exact fun k hk => hr3 k (List.mem_cons_of_mem _ hk)

theorem resolve_depth_inv (idx : ProtoIndex) :
    ∀ (d : Nat) (m : ProtoMessage) (v : List String),
      ResolveInv v (resolve_depth idx d m v) := by
  intro d
  induction d with
  | zero =>
    intro m v
    exact ⟨by simp [resolve_depth, dKeys], by simp [resolve_depth, dKeys],
      fun k hk => hk, by simp [resolve_depth, dKeys]⟩
  | succ d ihd =>
    intro m v
    exact resolve_fields_inv idx _ (fun m2 v2 => ihd m2 v2) m.full_name m.fields v

theorem resolveRpcSide_inv (idx : ProtoIndex) (d : Nat) (fn t : String)
    (acc : List (String × ResolvedDef)) (visited : List String)
    (hacc1 : (dKeys acc).Nodup) (hacc2 : ∀ k ∈ dKeys acc, k ∈ visited) :
    (dKeys (resolveRpcSide idx d fn t acc visited).1).Nodup ∧
    (∀ k ∈ dKeys (resolveRpcSide idx d fn t acc visited).1,
      k ∈ (resolveRpcSide idx d fn t acc visited).2) ∧
    (∀ k ∈ visited, k ∈ (resolveRpcSide idx d fn t acc visited).2) := by
  unfold resolveRpcSide
  cases hfind : find_message_by_type idx t fn with
  | none => exact ⟨hacc1, fun k hk => hacc2 k hk, fun k hk => hk⟩
  | some m =>
    dsimp only []
    by_cases hvis : visited.contains t = true
    · rw [if_pos hvis]; exact ⟨hacc1, fun k hk => hacc2 k hk, fun k hk => hk⟩
    · rw [if_neg hvis]
      simp only [resolve_message_types]
      have htv : t ∉ visited := by simpa using hvis
      obtain ⟨hn1, hn2, hn3, hn4⟩ := resolve_depth_inv idx (d - 1) m (t :: visited)
      have htacc : t ∉ dKeys acc := fun hm => htv (hacc2 t hm)
      have hset : dSet acc t (resolvedOfMessage idx m) =
          acc ++ [(t, resolvedOfMessage idx m)] :=
        dSet_eq_append_of_not_mem _ htacc
      have hupd : dUpd (acc ++ [(t, resolvedOfMessage idx m)])
          (resolve_depth idx (d - 1) m (t :: visited)).1 =
          (acc ++ [(t, resolvedOfMessage idx m)]) ++
            (resolve_depth idx (d - 1) m (t :: visited)).1 := by
        refine dUpd_eq_append ?_ hn2
        intro k hk
        have hkt := hn1 k hk
        simp only [List.mem_cons, not_or] at hkt
        rw [dKeys_append]
        simp only [List.mem_append, not_or]
        refine ⟨fun hka => hkt.2 (hacc2 k hka), ?_⟩
        simp only [dKeys, List.map_cons, List.map_nil, List.mem_singleton]
        exact hkt.1
      rw [hset, hupd]
      have hkeys : dKeys ((acc ++ [(t, resolvedOfMessage idx m)]) ++
          (resolve_depth idx (d - 1) m (t :: visited)).1) =
          (dKeys acc ++ [t]) ++ dKeys (resolve_depth idx (d - 1) m (t :: visited)).1 := by
        rw [dKeys_append, dKeys_append]
        rfl
      refine ⟨?_, ?_, ?_⟩
      · rw [hkeys]
        refine List.Nodup.append ?_ hn2 ?_
        · refine hacc1.append (List.nodup_singleton t) ?_
          refine List.disjoint_left.mpr ?_
          intro a ha hb
          simp only [List.mem_singleton] at hb
          exact htacc (hb ▸ ha)
        · refine List.disjoint_left.mpr ?_
          intro a ha hb
          have := hn1 a hb
          simp only [List.mem_append, List.mem_singleton] at ha
          simp only [List.mem_cons, not_or] at this
          rcases ha with ha | ha
          · exact this.2 (hacc2 a ha)
          · exact this.1 ha
      · intro k hk
        rw [hkeys] at hk
        simp only [List.mem_append, List.mem_singleton] at hk
        rcases hk with (hk | hk) | hk
        · exact hn3 k (List.mem_cons_of_mem _ (hacc2 k hk))
        · exact hn3 k (hk ▸ List.mem_cons_self _ _)
        · exact hn4 k hk
      · exact fun k hk => hn3 k (List.mem_cons_of_mem _ hk)

theorem resolveRpcs_inv (idx : ProtoIndex) (d : Nat) (fn : String) :
    ∀ (rpcs : List ProtoRPC) (acc : List (String × ResolvedDef))
      (visited : List String),
      (dKeys acc).Nodup → (∀ k ∈ dKeys acc, k ∈ visited) →
      (dKeys (resolveRpcs idx d fn rpcs acc visited).1).Nodup := by
  intro rpcs
  induction rpcs with
  | nil => intro acc visited h1 _; exact h1
  | cons rpc rest ih =>
    intro acc visited h1 h2
    simp only [resolveRpcs]
    obtain ⟨p1a, p1b, p1c⟩ :=
      resolveRpcSide_inv idx d fn rpc.request_type acc visited h1 h2
    obtain ⟨p2a, p2b, p2c⟩ :=
      resolveRpcSide_inv idx d fn rpc.response_type _ _ p1a p1b
    exact ih _ _ p2a p2b

/-- C2: resolving the self-referential message `A { A self = 1; }` with
`max_depth = 5` terminates with `A` in the resolved map exactly once and
no re-expansion (the final visited set is exactly `{A}`); and in general
the one visited set shared across the whole call tree of a top-level
resolution — including across all RPCs of one service — means no type
token is ever expanded twice: the resolved maps of
`_resolve_message_types` and of the `get_service` RPC loop repeat no
key. -/
theorem c2_cycle_safe_resolution :
    resolve_message_types idxA msgA 5 [] =
      ([("A", .message "A" "A" none [⟨"self", "A", 1, none, none⟩]
        (some "a.proto"))], ["A"]) ∧
    (∀ (idx : ProtoIndex) (m : ProtoMessage) (d : Nat),
      (dKeys (resolve_message_types idx m d []).1).Nodup) ∧
    (∀ (idx : ProtoIndex) (d : Nat) (fn : String) (rpcs : List ProtoRPC),
      (dKeys (resolveRpcs idx d fn rpcs [] []).1).Nodup) := by
  refine ⟨rfl, ?_, ?_⟩
  · intro idx m d
    exact (resolve_depth_inv idx d m []).2.1
  · intro idx d fn rpcs
    exact resolveRpcs_inv idx d fn rpcs [] [] (by simp [dKeys]) (by simp [dKeys])

theorem resolve_fields_cons_msg (idx : ProtoIndex)
    (rn : ProtoMessage → List String → List (String × ResolvedDef) × List String)
    (hrn : ∀ m v, ResolveInv v (rn m v)) (ctx : String) (f : ProtoField)
    (rest : List ProtoField) (visited : List String) (m : ProtoMessage)
    (hprim : primitiveTypes.contains f.type = false)
    (hvis : visited.contains f.type = false)
    (hfind : find_message_by_type idx f.type ctx = some m) :
    resolve_fields idx rn ctx (f :: rest) visited =
      (((f.type, resolvedOfMessage idx m) :: (rn m (f.type :: visited)).1) ++
        (resolve_fields idx rn ctx rest (rn m (f.type :: visited)).2).1,
       (resolve_fields idx rn ctx rest (rn m (f.type :: visited)).2).2) := by
  simp only [resolve_fields, hprim, hvis, Bool.false_eq_true, if_false, hfind]
  obtain ⟨hn1, hn2, hn3, hn4⟩ := hrn m (f.type :: visited)
  obtain ⟨hr1, hr2, hr3, hr4⟩ :=
    resolve_fields_inv idx rn hrn ctx rest (rn m (f.type :: visited)).2
  have hftn : f.type ∈ (rn m (f.type :: visited)).2 :=
    hn3 f.type (List.mem_cons_self _ _)
  have hinner : dUpd [(f.type, resolvedOfMessage idx m)]
      (rn m (f.type :: visited)).1 =
      (f.type, resolvedOfMessage idx m) :: (rn m (f.type :: visited)).1 := by
    rw [dUpd_eq_append ?_ hn2]
    · rfl
    · intro k hk
      simp only [dKeys, List.map_cons, List.map_nil, List.mem_singleton]
      intro hkk
      exact hn1 k hk (hkk ▸ List.mem_cons_self _ _)
  have houter : dUpd ((f.type, resolvedOfMessage idx m) ::
      (rn m (f.type :: visited)).1)
      (resolve_fields idx rn ctx rest (rn m (f.type :: visited)).2).1 =
      ((f.type, resolvedOfMessage idx m) :: (rn m (f.type :: visited)).1) ++
      (resolve_fields idx rn ctx rest (rn m (f.type :: visited)).2).1 := by
    refine dUpd_eq_append ?_ hr2
    intro k hk
    simp only [dKeys, List.map_cons, List.mem_cons, not_or]
    exact ⟨fun hkk => hr1 k hk (hkk ▸ hftn), fun hkm => hr1 k hk (hn4 k hkm)⟩
  rw [hinner, houter]

theorem resolve_fields_cons_enum (idx : ProtoIndex)
    (rn : ProtoMessage → List String → List (String × ResolvedDef) × List String)
    (hrn : ∀ m v, ResolveInv v (rn m v)) (ctx : String) (f : ProtoField)
    (rest : List ProtoField) (visited : List String) (e : ProtoEnum)
    (hprim : primitiveTypes.contains f.type = false)
    (hvis : visited.contains f.type = false)
    (hfind : find_message_by_type idx f.type ctx = none)
    (henum : find_enum_by_type idx f.type ctx = some e) :
    resolve_fields idx rn ctx (f :: rest) visited =
      ((f.type, resolvedOfEnum idx e) ::
        (resolve_fields idx rn ctx rest (f.type :: visited)).1,
       (resolve_fields idx rn ctx rest (f.type :: visited)).2) := by
  simp only [resolve_fields, hprim, hvis, Bool.false_eq_true, if_false, hfind,
    henum]
  obtain ⟨hr1, hr2, hr3, hr4⟩ :=
    resolve_fields_inv idx rn hrn ctx rest (f.type :: visited)
  have hinner : dUpd [(f.type, resolvedOfEnum idx e)]
      (resolve_fields idx rn ctx rest (f.type :: visited)).1 =
      (f.type, resolvedOfEnum idx e) ::
        (resolve_fields idx rn ctx rest (f.type :: visited)).1 := by
    rw [dUpd_eq_append ?_ hr2]
    · rfl
    · intro k hk
      simp only [dKeys, List.map_cons, List.map_nil, List.mem_singleton]
      intro hkk
      exact hr1 k hk (hkk ▸ List.mem_cons_self _ _)
  rw [hinner]

theorem resolve_fields_cons_drop (idx : ProtoIndex)
    (rn : ProtoMessage → List String → List (String × ResolvedDef) × List String)
    (ctx : String) (f : ProtoField) (rest : List ProtoField)
    (visited : List String)
    (hprim : primitiveTypes.contains f.type = false)
    (hvis : visited.contains f.type = false)
    (hfind : find_message_by_type idx f.type ctx = none)
    (henum : find_enum_by_type idx f.type ctx = none) :
    resolve_fields idx rn ctx (f :: rest) visited =
      resolve_fields idx rn ctx rest (f.type :: visited) := by
  simp only [resolve_fields, hprim, hvis, Bool.false_eq_true, if_false, hfind,
    henum]

/-- C5: the resolver's lookup order.  Message lookup tries, in order, the
exact fqname, the token qualified with the referring entity's package
prefix (its fqname minus the last dot segment), then a whole-table scan by
simple name or fqname suffix; the enum table is consulted with the same
three steps only when the message lookup fails entirely; a token found as
a message is recorded as that message's definition, one found only as an
enum as that enum's definition, and a token found as neither is silently
dropped from the resolved map (only marked visited) with no error. -/
theorem c5_lookup_order :
    (∀ (idx : ProtoIndex) (t ctx : String) (m : ProtoMessage),
        dGet idx.messages t = some m → find_message_by_type idx t ctx = some m) ∧
    (∀ (idx : ProtoIndex) (t ctx : String) (m : ProtoMessage),
        dGet idx.messages t = none → pkgHead ctx ≠ "" →
        dGet idx.messages (pkgHead ctx ++ "." ++ t) = some m →
        find_message_by_type idx t ctx = some m) ∧
    (∀ (idx : ProtoIndex) (t ctx : String),
        dGet idx.messages t = none →
        (pkgHead ctx = "" ∨ dGet idx.messages (pkgHead ctx ++ "." ++ t) = none) →
        find_message_by_type idx t ctx =
          (idx.messages.find? (fun kv =>
            kv.2.name == t || strEndsWith kv.1 ("." ++ t))).map (·.2)) ∧
    (∀ (idx : ProtoIndex) (t ctx : String) (e : ProtoEnum),
        dGet idx.enums t = some e → find_enum_by_type idx t ctx = some e) ∧
    (∀ (idx : ProtoIndex) (t ctx : String) (e : ProtoEnum),
        dGet idx.enums t = none → pkgHead ctx ≠ "" →
        dGet idx.enums (pkgHead ctx ++ "." ++ t) = some e →
        find_enum_by_type idx t ctx = some e) ∧
    (∀ (idx : ProtoIndex) (t ctx : String),
        dGet idx.enums t = none →
        (pkgHead ctx = "" ∨ dGet idx.enums (pkgHead ctx ++ "." ++ t) = none) →
        find_enum_by_type idx t ctx =
          (idx.enums.find? (fun kv =>
            kv.2.name == t || strEndsWith kv.1 ("." ++ t))).map (·.2)) ∧
    (∀ (idx : ProtoIndex)
        (rn : ProtoMessage → List String → List (String × ResolvedDef) × List String),
        (∀ m v, ResolveInv v (rn m v)) →
        ∀ (ctx : String) (f : ProtoField) (rest : List ProtoField)
          (visited : List String) (m : ProtoMessage),
        primitiveTypes.contains f.type = false →
        visited.contains f.type = false →
        find_message_by_type idx f.type ctx = some m →
        dGet (resolve_fields idx rn ctx (f :: rest) visited).1 f.type =
          some (resolvedOfMessage idx m)) ∧
    (∀ (idx : ProtoIndex)
        (rn : ProtoMessage → List String → List (String × ResolvedDef) × List String),
        (∀ m v, ResolveInv v (rn m v)) →
        ∀ (ctx : String) (f : ProtoField) (rest : List ProtoField)
          (visited : List String) (e : ProtoEnum),
        primitiveTypes.contains f.type = false →
        visited.contains f.type = false →
        find_message_by_type idx f.type ctx = none →
        find_enum_by_type idx f.type ctx = some e →
        dGet (resolve_fields idx rn ctx (f :: rest) visited).1 f.type =
          some (resolvedOfEnum idx e)) ∧
    (∀ (idx : ProtoIndex)
        (rn : ProtoMessage → List String → List (String × ResolvedDef) × List String),
        (∀ m v, ResolveInv v (rn m v)) →
        ∀ (ctx : String) (f : ProtoField) (rest : List ProtoField)
          (visited : List String),
        primitiveTypes.contains f.type = false →
        visited.contains f.type = false →
        find_message_by_type idx f.type ctx = none →
        find_enum_by_type idx f.type ctx = none →
        resolve_fields idx rn ctx (f :: rest) visited =
          resolve_fields idx rn ctx rest (f.type :: visited) ∧
        dGet (resolve_fields idx rn ctx (f :: rest) visited).1 f.type = none) := by
  refine ⟨?_, ?_, ?_, ?_, ?_, ?_, ?_, ?_, ?_⟩
  · intro idx t ctx m h1
    simp [find_message_by_type, h1]
  · intro idx t ctx m h1 h2 h3
    have hbeq : (pkgHead ctx == "") = false := by simpa using h2
    simp [find_message_by_type, h1, hbeq, h3]
  · intro idx t ctx h1 h2
    have hvia : (if (pkgHead ctx == "") = true then none
        else dGet idx.messages (pkgHead ctx ++ "." ++ t)) = none := by
      rcases h2 with h2 | h2
      · simp [h2]
      · by_cases hb : pkgHead ctx = "" <;> simp [hb, h2]
    simp only [find_message_by_type, h1, hvia]
  · intro idx t ctx e h1
    simp [find_enum_by_type, h1]
  · intro idx t ctx e h1 h2 h3
    have hbeq : (pkgHead ctx == "") = false := by simpa using h2
    simp [find_enum_by_type, h1, hbeq, h3]
  · intro idx t ctx h1 h2
    have hvia : (if (pkgHead ctx == "") = true then none
        else dGet idx.enums (pkgHead ctx ++ "." ++ t)) = none := by
      rcases h2 with h2 | h2
      · simp [h2]
      · by_cases hb : pkgHead ctx = "" <;> simp [hb, h2]
    simp only [find_enum_by_type, h1, hvia]
  · intro idx rn hrn ctx f rest visited m hprim hvis hfind
    rw [resolve_fields_cons_msg idx rn hrn ctx f rest visited m hprim hvis hfind]
    simp [dGet_cons]
  · intro idx rn hrn ctx f rest visited e hprim hvis hfind henum
    rw [resolve_fields_cons_enum idx rn hrn ctx f rest visited e hprim hvis
      hfind henum]
    simp [dGet_cons]
  · intro idx rn hrn ctx f rest visited hprim hvis hfind henum
    refine ⟨resolve_fields_cons_drop idx rn ctx f rest visited hprim hvis
      hfind henum, ?_⟩
    rw [resolve_fields_cons_drop idx rn ctx f rest visited hprim hvis hfind
      henum]
    obtain ⟨hr1, _, _, _⟩ :=
      resolve_fields_inv idx rn hrn ctx rest (f.type :: visited)
    refine dGet_eq_none_of_not_mem ?_
    intro hmem
    exact hr1 f.type hmem (List.mem_cons_self _ _)

theorem c5_lookup_order_witness :
    find_message_by_type idxA "A" "A" = some msgA ∧
    dGet (resolve_fields c3Idx (fun m v => resolve_depth c3Idx 9 m v)
        "api.v1.User" [{ name := "role", type := "UserRole", number := 2 }] []).1
        "UserRole" =
      some (resolvedOfEnum c3Idx
        { name := "UserRole", full_name := "api.v1.UserRole",
          values := [{ name := "ADMIN", type := "enum_value", number := 0 },
            { name := "MEMBER", type := "enum_value", number := 1 }] }) :=
  ⟨c5_lookup_order.1 idxA "A" "A" msgA rfl,
   c5_lookup_order.2.2.2.2.2.2.2.1 c3Idx (fun m v => resolve_depth c3Idx 9 m v)
     (fun m v => resolve_depth_inv c3Idx 9 m v) "api.v1.User"
     { name := "role", type := "UserRole", number := 2 } [] []
     { name := "UserRole", full_name := "api.v1.UserRole",
       values := [{ name := "ADMIN", type := "enum_value", number := 0 },
         { name := "MEMBER", type := "enum_value", number := 1 }] }
     rfl rfl rfl rfl⟩

theorem not_mem_of_dGet_eq_none {α : Type} {d : List (String × α)} {k : String}
    (h : dGet d k = none) : k ∉ dKeys d := by
  induction d with
  | nil => simp [dKeys]
  | cons kv rest ih =>
    rw [dGet_cons] at h
    by_cases hkv : kv.1 = k
    · rw [if_pos hkv] at h; simp at h
    · rw [if_neg hkv] at h
      simp only [dKeys, List.map_cons, List.mem_cons, not_or]
      exact ⟨Ne.symm hkv, ih h⟩

theorem dGet_dSet_self {α : Type} (d : List (String × α)) (k : String) (v : α) :
    dGet (dSet d k v) k = some v := by
  induction d with
  | nil =>
    rw [show dSet ([] : List (String × α)) k v = [(k, v)] from rfl, dGet_cons]
    simp
  | cons kv rest ih =>
    by_cases hkv : kv.1 = k
    · rw [dSet_cons, if_pos hkv, dGet_cons]
      simp
    · rw [dSet_cons, if_neg hkv, dGet_cons, if_neg hkv]
      exact ih

theorem mem_dKeys_dSet {α : Type} {d : List (String × α)} {k k' : String}
    {v : α} (h : k' ∈ dKeys (dSet d k v)) : k' ∈ dKeys d ∨ k' = k := by
  induction d with
  | nil => simpa [dSet, dKeys] using h
  | cons kv rest ih =>
    by_cases hkv : kv.1 = k
    · rw [dSet_cons, if_pos hkv] at h
      simp only [dKeys, List.map_cons, List.mem_cons] at h ⊢
      tauto
    · rw [dSet_cons, if_neg hkv] at h
      simp only [dKeys, List.map_cons, List.mem_cons] at h ⊢
      rcases h with h | h
      · exact Or.inl (Or.inl h)
      · rcases ih h with h2 | h2
        · exact Or.inl (Or.inr h2)
        · exact Or.inr h2

theorem nodup_dKeys_dSet {α : Type} {d : List (String × α)} (k : String) (v : α)
    (h : (dKeys d).Nodup) : (dKeys (dSet d k v)).Nodup := by
  by_cases hk : k ∈ dKeys d
  · induction d with
    | nil => simp [dKeys] at hk
    | cons kv rest ih =>
      simp only [dKeys, List.map_cons, List.nodup_cons] at h
      by_cases hkv : kv.1 = k
      · rw [dSet_cons, if_pos hkv]
        simp only [dKeys, List.map_cons, List.nodup_cons]
        exact ⟨hkv ▸ h.1, h.2⟩
      · simp only [dKeys, List.map_cons, List.mem_cons] at hk
        rcases hk with hk | hk
        · exact absurd hk.symm hkv
        · rw [dSet_cons, if_neg hkv]
          simp only [dKeys, List.map_cons, List.nodup_cons]
          refine ⟨?_, ih h.2 hk⟩
          intro hmem
          rcases mem_dKeys_dSet hmem with h2 | h2
          · exact h.1 h2
          · exact hkv h2
  · rw [dSet_eq_append_of_not_mem _ hk, dKeys_append]
    simp only [dKeys, List.map_cons, List.map_nil]
    rw [List.nodup_append]
    exact ⟨h, List.nodup_singleton _, by
      intro a ha
      simp only [List.mem_singleton]
      intro hak
      exact hk (hak ▸ ha)⟩

theorem dSet_append_left_of_not_mem {α : Type} {d1 : List (String × α)}
    (d2 : List (String × α)) {k : String} (v : α) (h : k ∉ dKeys d1) :
    dSet (d1 ++ d2) k v = d1 ++ dSet d2 k v := by
  induction d1 with
  | nil => rfl
  | cons kv rest ih =>
    simp only [dKeys, List.map_cons, List.mem_cons, not_or] at h
    rw [List.cons_append, dSet_cons, if_neg (Ne.symm h.1), List.cons_append,
      ih (by simpa [dKeys] using h.2)]

theorem dPop_append_left_of_not_mem {α : Type} {d1 : List (String × α)}
    (d2 : List (String × α)) {k : String} (h : k ∉ dKeys d1) :
    dPop (d1 ++ d2) k = d1 ++ dPop d2 k := by
  induction d1 with
  | nil => rfl
  | cons kv rest ih =>
    simp only [dKeys, List.map_cons, List.mem_cons, not_or] at h
    rw [List.cons_append, dPop_cons, if_neg (Ne.symm h.1), List.cons_append,
      ih (by simpa [dKeys] using h.2)]

theorem foldl_dSet_append {α β : Type} (f : β → String) (g : β → α)
    (l : List β) :
    ∀ (d1 d2 : List (String × α)), (∀ x ∈ l, f x ∉ dKeys d1) →
      l.foldl (fun d x => dSet d (f x) (g x)) (d1 ++ d2) =
        d1 ++ l.foldl (fun d x => dSet d (f x) (g x)) d2 := by
  induction l with
  | nil => intro d1 d2 _; rfl
  | cons x rest ih =>
    intro d1 d2 hf
    simp only [List.foldl_cons]
    rw [dSet_append_left_of_not_mem d2 (g x) (hf x (List.mem_cons_self _ _))]
    exact ih d1 _ (fun y hy => hf y (List.mem_cons_of_mem _ hy))

theorem foldl_dPop_append {α β : Type} (f : β → String) (l : List β) :
    ∀ (d1 d2 : List (String × α)), (∀ x ∈ l, f x ∉ dKeys d1) →
      l.foldl (fun d x => dPop d (f x)) (d1 ++ d2) =
        d1 ++ l.foldl (fun d x => dPop d (f x)) d2 := by
  induction l with
  | nil => intro d1 d2 _; rfl
  | cons x rest ih =>
    intro d1 d2 hf
    simp only [List.foldl_cons]
    rw [dPop_append_left_of_not_mem d2 (hf x (List.mem_cons_self _ _))]
    exact ih d1 _ (fun y hy => hf y (List.mem_cons_of_mem _ hy))

theorem foldl_dSet_keys_subset {α β : Type} (f : β → String) (g : β → α)
    (l : List β) :
    ∀ (d : List (String × α)) (k : String),
      k ∈ dKeys (l.foldl (fun d x => dSet d (f x) (g x)) d) →
      k ∈ dKeys d ∨ k ∈ l.map f := by
  induction l with
  | nil => intro d k hk; exact Or.inl hk
  | cons x rest ih =>
    intro d k hk
    simp only [List.foldl_cons] at hk
    rcases ih _ k hk with h | h
    · rcases mem_dKeys_dSet h with h2 | h2
      · exact Or.inl h2
      · exact Or.inr (by simp [h2])
    · exact Or.inr (List.mem_cons_of_mem _ h)

theorem foldl_dSet_keys_nodup {α β : Type} (f : β → String) (g : β → α)
    (l : List β) :
    ∀ (d : List (String × α)), (dKeys d).Nodup →
      (dKeys (l.foldl (fun d x => dSet d (f x) (g x)) d)).Nodup := by
  induction l with
  | nil => intro d h; exact h
  | cons x rest ih =>
    intro d h
    simp only [List.foldl_cons]
    exact ih _ (nodup_dKeys_dSet _ _ h)

theorem foldl_dPop_of_keys_subset {α β : Type} (f : β → String) (l : List β) :
    ∀ (E : List (String × α)), (dKeys E).Nodup →
      (∀ k ∈ dKeys E, k ∈ l.map f) →
      l.foldl (fun d x => dPop d (f x)) E = [] := by
  induction l with
  | nil =>
    intro E _ hsub
    cases E with
    | nil => rfl
    | cons kv rest => exact absurd (hsub kv.1 (by simp [dKeys])) (by simp)
  | cons x rest ih =>
    intro E hnd hsub
    simp only [List.foldl_cons]
    refine ih _ (nodup_dKeys_dPop _ hnd) ?_
    intro k hk
    have hkE : k ∈ dKeys E := (dKeys_dPop_sublist E (f x)).mem hk
    have hh : k = f x ∨ k ∈ rest.map f := by
      have h0 := hsub k hkE
      rw [List.map_cons, List.mem_cons] at h0
      exact h0
    rcases hh with h | h
    · exfalso
      have : dGet (dPop E (f x)) (f x) = none := dGet_dPop_self E (f x) hnd
      exact not_mem_of_dGet_eq_none this (h ▸ hk)
    · exact h

theorem foldl_dSet_split {α β : Type} (f : β → String) (g : β → α)
    (l : List β) (d : List (String × α)) (h : ∀ x ∈ l, f x ∉ dKeys d) :
    l.foldl (fun d x => dSet d (f x) (g x)) d =
      d ++ l.foldl (fun d x => dSet d (f x) (g x)) [] := by
  have h0 := foldl_dSet_append f g l d [] h
  rwa [List.append_nil] at h0

theorem foldl_dPop_split {α β : Type} (f : β → String) (l : List β)
    (d E : List (String × α)) (h : ∀ x ∈ l, f x ∉ dKeys d) :
    l.foldl (fun d x => dPop d (f x)) (d ++ E) =
      d ++ l.foldl (fun d x => dPop d (f x)) E :=
  foldl_dPop_append f l d E h

/-- Ingesting a document whose path and entity fqnames are all fresh and
then evicting that path is the identity on the index. -/
theorem ingest_evict_identity (idx : ProtoIndex) (p : String) (doc : ProtoFile)
    (hp : dGet idx.files p = none)
    (hsv : ∀ s ∈ doc.services, dGet idx.services s.full_name = none)
    (hmsg : ∀ m ∈ doc.messages, dGet idx.messages m.full_name = none)
    (hen : ∀ e ∈ doc.enums, dGet idx.enums e.full_name = none)
    (hent : ∀ en ∈ idx.searchEntries, en.file ≠ p) :
    remove_file (index_parsed_file idx p doc) p = idx := by
  have hfget : dGet (index_parsed_file idx p doc).files p = some doc :=
    dGet_dSet_self _ _ _
  obtain ⟨fls, svs, msgs, ens, ents⟩ := idx
  simp only [remove_file, hfget]
  simp only [index_parsed_file]
  simp only [ProtoIndex.mk.injEq]
  refine ⟨?_, ?_, ?_, ?_, ?_⟩
  · have hnp : p ∉ dKeys fls := not_mem_of_dGet_eq_none hp
    rw [dSet_eq_append_of_not_mem _ hnp, dPop_append_left_of_not_mem _ hnp]
    rw [show dPop [(p, doc)] p = [] from by rw [dPop_cons, if_pos rfl]]
    exact List.append_nil fls
  · have hfresh : ∀ s ∈ doc.services, s.full_name ∉ dKeys svs :=
      fun s hs => not_mem_of_dGet_eq_none (hsv s hs)
    rw [foldl_dSet_split (fun s => s.full_name) (fun s => s) doc.services svs
      hfresh]
    rw [foldl_dPop_split (fun s => s.full_name) doc.services svs _ hfresh]
    rw [foldl_dPop_of_keys_subset (fun s => s.full_name) doc.services _
      (foldl_dSet_keys_nodup _ _ _ _ (by simp [dKeys]))
      (fun k hk => by
        rcases foldl_dSet_keys_subset _ _ _ _ k hk with h | h
        · simp [dKeys] at h
        · exact h)]
    exact List.append_nil svs
  · have hfresh : ∀ m ∈ doc.messages, m.full_name ∉ dKeys msgs :=
      fun m hm => not_mem_of_dGet_eq_none (hmsg m hm)
    rw [foldl_dSet_split (fun m => m.full_name) (fun m => m) doc.messages msgs
      hfresh]
    rw [foldl_dPop_split (fun m => m.full_name) doc.messages msgs _ hfresh]
    rw [foldl_dPop_of_keys_subset (fun m => m.full_name) doc.messages _
      (foldl_dSet_keys_nodup _ _ _ _ (by simp [dKeys]))
      (fun k hk => by
        rcases foldl_dSet_keys_subset _ _ _ _ k hk with h | h
        · simp [dKeys] at h
        · exact h)]
    exact List.append_nil msgs
  · have hfresh : ∀ e ∈ doc.enums, e.full_name ∉ dKeys ens :=
      fun e he => not_mem_of_dGet_eq_none (hen e he)
    rw [foldl_dSet_split (fun e => e.full_name) (fun e => e) doc.enums ens
      hfresh]
    rw [foldl_dPop_split (fun e => e.full_name) doc.enums ens _ hfresh]
    rw [foldl_dPop_of_keys_subset (fun e => e.full_name) doc.enums _
      (foldl_dSet_keys_nodup _ _ _ _ (by simp [dKeys]))
      (fun k hk => by
        rcases foldl_dSet_keys_subset _ _ _ _ k hk with h | h
        · simp [dKeys] at h
        · exact h)]
    exact List.append_nil ens
  · rw [List.filter_append, List.filter_append, List.filter_append]
    rw [List.filter_eq_self.mpr (fun e he => by
      simpa using hent e he)]
    rw [List.filter_eq_nil_iff.mpr (fun e he => by
      obtain ⟨s, _, rfl⟩ := List.mem_map.mp he
      simp)]
    rw [List.filter_eq_nil_iff.mpr (fun e he => by
      obtain ⟨m, _, rfl⟩ := List.mem_map.mp he
      simp)]
    rw [List.filter_eq_nil_iff.mpr (fun e he => by
      obtain ⟨en, _, rfl⟩ := List.mem_map.mp he
      simp)]
    simp

theorem insertScored_perm (x : Nat × SearchEntry)
    (l : List (Nat × SearchEntry)) : (insertScored x l).Perm (x :: l) := by
  induction l with
  | nil => exact List.Perm.refl _
  | cons y ys ih =>
    simp only [insertScored]
    by_cases h : y.1 < x.1
    · rw [if_pos h]
    · rw [if_neg h]
      exact (ih.cons y).trans (List.Perm.swap x y ys)

theorem foldl_insertScored_perm (l : List (Nat × SearchEntry)) :
    ∀ acc, (l.foldl (fun a x => insertScored x a) acc).Perm (l ++ acc) := by
  induction l with
  | nil => intro acc; exact List.Perm.refl _
  | cons x rest ih =>
    intro acc
    simp only [List.foldl_cons]
    refine ((ih _).trans ?_)
    refine (List.Perm.append_left rest (insertScored_perm x acc)).trans ?_
    exact List.perm_middle

theorem processExtract_mem (sc : Scorer) (q : String)
    (entries : List SearchEntry) (lim : Nat) (y : Nat × SearchEntry)
    (hy : y ∈ processExtract sc q entries lim) : y.2 ∈ entries := by
  unfold processExtract at hy
  have h1 := (List.take_sublist lim _).mem hy
  have h2 := ((foldl_insertScored_perm _ []).mem_iff).mp h1
  rw [List.append_nil] at h2
  obtain ⟨e, he, heq⟩ := List.mem_map.mp h2
  rw [← heq]
  exact he

theorem searchPhase1_spec (ms : Nat) :
    ∀ (l : List (Nat × SearchEntry)) (seen : List String),
      (∀ r ∈ (searchPhase1 ms l seen).1,
        ms ≤ r.score ∧ r.name ∉ seen ∧ ∃ se ∈ l, r = mkNameResult se.2 se.1) ∧
      ((searchPhase1 ms l seen).1.map (fun r => r.name)).Nodup ∧
      (∀ s ∈ seen, s ∈ (searchPhase1 ms l seen).2) ∧
      (∀ r ∈ (searchPhase1 ms l seen).1, r.name ∈ (searchPhase1 ms l seen).2) := by
  intro l
  induction l with
  | nil =>
    intro seen
    exact ⟨by simp [searchPhase1], by simp [searchPhase1], fun s hs => hs,
      by simp [searchPhase1]⟩
  | cons se rest ih =>
    intro seen
    simp only [searchPhase1]
    by_cases h1 : se.1 < ms
    · rw [if_pos h1]
      refine ⟨?_, (ih seen).2.1, (ih seen).2.2.1, (ih seen).2.2.2⟩
      intro r hr
      obtain ⟨ha, hb, se', hse', hc⟩ := (ih seen).1 r hr
      exact ⟨ha, hb, se', List.mem_cons_of_mem _ hse', hc⟩
    · rw [if_neg h1]
      by_cases h2 : seen.contains se.2.full_name = true
      · rw [if_pos h2]
        refine ⟨?_, (ih seen).2.1, (ih seen).2.2.1, (ih seen).2.2.2⟩
        intro r hr
        obtain ⟨ha, hb, se', hse', hc⟩ := (ih seen).1 r hr
        exact ⟨ha, hb, se', List.mem_cons_of_mem _ hse', hc⟩
      · rw [if_neg h2]
        dsimp only []
        have hfn : se.2.full_name ∉ seen := by simpa using h2
        obtain ⟨ia, ib, ic, id2⟩ := ih (se.2.full_name :: seen)
        refine ⟨?_, ?_, ?_, ?_⟩
        · intro r hr
          rcases List.mem_cons.mp hr with hr | hr
          · subst hr
            exact ⟨by show ms ≤ se.1; omega, hfn, se,
              List.mem_cons_self _ _, rfl⟩
          · obtain ⟨ha, hb, se', hse', hc⟩ := ia r hr
            exact ⟨ha, fun hmem => hb (List.mem_cons_of_mem _ hmem), se',
              List.mem_cons_of_mem _ hse', hc⟩
        · simp only [List.map_cons]
          rw [List.nodup_cons]
          refine ⟨?_, ib⟩
          intro hmem
          obtain ⟨r, hr, hname⟩ := List.mem_map.mp hmem
          obtain ⟨_, hb, _⟩ := ia r hr
          exact hb (by
            rw [show r.name = se.2.full_name from hname]
            exact List.mem_cons_self _ _)
        · intro s hs
          exact ic s (List.mem_cons_of_mem _ hs)
        · intro r hr
          rcases List.mem_cons.mp hr with hr | hr
          · subst hr
            exact ic _ (List.mem_cons_self _ _)
          · exact id2 r hr

theorem searchPhase2_spec (sc : Scorer) (q : String) (ms : Nat) :
    ∀ (l : List SearchEntry) (seen : List String),
      (∀ r ∈ searchPhase2 sc q ms l seen,
        ms ≤ r.score ∧ r.name ∉ seen ∧ ∃ e ∈ l, r.file = e.file) ∧
      ((searchPhase2 sc q ms l seen).map (fun r => r.name)).Nodup := by
  intro l
  induction l with
  | nil =>
    intro seen
    exact ⟨by simp [searchPhase2], by simp [searchPhase2]⟩
  | cons e rest ih =>
    intro seen
    simp only [searchPhase2]
    by_cases h1 : seen.contains e.full_name = true
    · rw [if_pos h1]
      refine ⟨?_, (ih seen).2⟩
      intro r hr
      obtain ⟨ha, hb, e', he', hc⟩ := (ih seen).1 r hr
      exact ⟨ha, hb, e', List.mem_cons_of_mem _ he', hc⟩
    · rw [if_neg h1]
      have hfn : e.full_name ∉ seen := by simpa using h1
      obtain ⟨ia, ib⟩ := ih (e.full_name :: seen)
      have htail : ∀ r ∈ searchPhase2 sc q ms rest (e.full_name :: seen),
          ms ≤ r.score ∧ r.name ∉ seen ∧ ∃ e2 ∈ e :: rest, r.file = e2.file := by
        intro r hr
        obtain ⟨ha, hb, e', he', hc⟩ := ia r hr
        exact ⟨ha, fun hm => hb (List.mem_cons_of_mem _ hm), e',
          List.mem_cons_of_mem _ he', hc⟩
      have hnotail : ∀ r ∈ searchPhase2 sc q ms rest (e.full_name :: seen),
          r.name ≠ e.full_name := by
        intro r hr
        obtain ⟨_, hb, _⟩ := ia r hr
        exact fun hr2 => hb (hr2 ▸ List.mem_cons_self _ _)
      have hnodup : ∀ res : SearchResult, res.name = e.full_name →
          ((res :: searchPhase2 sc q ms rest (e.full_name :: seen)).map
            (fun r => r.name)).Nodup := by
        intro res hres
        simp only [List.map_cons]
        rw [List.nodup_cons]
        refine ⟨?_, ib⟩
        intro hmem
        obtain ⟨r, hr, hname⟩ := List.mem_map.mp hmem
        exact hnotail r hr (hname.trans hres)
      split
      next h2 =>
        have hscore : ms ≤ sc.partRatio (lowerStr q)
            (lowerStr (e.obj.commentOf.getD "")) := by
          rw [Bool.and_eq_true] at h2
          exact of_decide_eq_true h2.2
        refine ⟨?_, hnodup _ rfl⟩
        intro r hr
        rcases List.mem_cons.mp hr with hr | hr
        · subst hr
          exact ⟨hscore, hfn, e, List.mem_cons_self _ _, rfl⟩
        · exact htail r hr
      next h2 =>
        split
        next f heq =>
          have hpred : ms ≤ sc.plainRatio (lowerStr q) (lowerStr f.name) := by
            by_cases hk : (e.kind == "message") = true
            · rw [if_pos hk] at heq
              have h3 := List.find?_some heq
              simpa using h3
            · rw [if_neg hk] at heq
              exact absurd heq (by simp)
          refine ⟨?_, hnodup _ rfl⟩
          intro r hr
          rcases List.mem_cons.mp hr with hr | hr
          · subst hr
            exact ⟨hpred, hfn, e, List.mem_cons_self _ _, rfl⟩
          · exact htail r hr
        next heq =>
          split
          next r2 heq2 =>
            have hpred : ms ≤ sc.plainRatio (lowerStr q) (lowerStr r2.name) := by
              by_cases hk : (e.kind == "service") = true
              · rw [if_pos hk] at heq2
                have h3 := List.find?_some heq2
                simpa using h3
              · rw [if_neg hk] at heq2
                exact absurd heq2 (by simp)
            refine ⟨?_, hnodup _ rfl⟩
            intro r hr
            rcases List.mem_cons.mp hr with hr | hr
            · subst hr
              exact ⟨hpred, hfn, e, List.mem_cons_self _ _, rfl⟩
            · exact htail r hr
          next heq2 =>
            obtain ⟨ja, jb⟩ := ih seen
            refine ⟨?_, jb⟩
            intro r hr
            obtain ⟨ha, hb, e', he', hc⟩ := ja r hr
            exact ⟨ha, hb, e', List.mem_cons_of_mem _ he', hc⟩

theorem searchPre_spec (sc : Scorer) (idx : ProtoIndex) (q : String)
    (lim ms : Nat) :
    (∀ r ∈ searchPre sc idx q lim ms,
      ms ≤ r.score ∧ ∃ e ∈ idx.searchEntries, r.file = e.file) ∧
    ((searchPre sc idx q lim ms).map (fun r => r.name)).Nodup := by
  unfold searchPre
  dsimp only []
  obtain ⟨p1a, p1b, p1c, p1d⟩ :=
    searchPhase1_spec ms (processExtract sc q idx.searchEntries (lim * 2)) []
  obtain ⟨p2a, p2b⟩ := searchPhase2_spec sc q ms idx.searchEntries
    (searchPhase1 ms (processExtract sc q idx.searchEntries (lim * 2)) []).2
  constructor
  · intro r hr
    rcases List.mem_append.mp hr with hr | hr
    · obtain ⟨ha, hb, se, hse, hc⟩ := p1a r hr
      subst hc
      exact ⟨ha, se.2, processExtract_mem sc q _ _ se hse, rfl⟩
    · obtain ⟨ha, hb, e, he, hc⟩ := p2a r hr
      exact ⟨ha, e, he, hc⟩
  · rw [List.map_append, List.nodup_append]
    refine ⟨p1b, p2b, ?_⟩
    intro a ha hb
    obtain ⟨r1, hr1, hname1⟩ := List.mem_map.mp ha
    obtain ⟨r2, hr2, hname2⟩ := List.mem_map.mp hb
    have h1 : a ∈ (searchPhase1 ms
        (processExtract sc q idx.searchEntries (lim * 2)) []).2 :=
      hname1 ▸ p1d r1 hr1
    obtain ⟨-, hb2, -⟩ := p2a r2 hr2
    exact hb2 (hname2 ▸ h1)

theorem insertByScore_perm (r : SearchResult) (l : List SearchResult) :
    (insertByScore r l).Perm (r :: l) := by
  induction l with
  | nil => exact List.Perm.refl _
  | cons y ys ih =>
    simp only [insertByScore]
    by_cases h : y.score < r.score
    · rw [if_pos h]
    · rw [if_neg h]
      exact (ih.cons y).trans (List.Perm.swap r y ys)

theorem foldl_insertByScore_perm (l : List SearchResult) :
    ∀ acc, (l.foldl (fun a r => insertByScore r a) acc).Perm (l ++ acc) := by
  induction l with
  | nil => intro acc; exact List.Perm.refl _
  | cons r rest ih =>
    intro acc
    simp only [List.foldl_cons]
    refine (ih _).trans ?_
    refine (List.Perm.append_left rest (insertByScore_perm r acc)).trans ?_
    exact List.perm_middle

theorem sortByScoreDesc_perm (l : List SearchResult) :
    (sortByScoreDesc l).Perm l := by
  unfold sortByScoreDesc
  have h := foldl_insertByScore_perm l []
  rwa [List.append_nil] at h

theorem insertByScore_pairwise (r : SearchResult) (l : List SearchResult)
    (h : l.Pairwise (fun a b => b.score ≤ a.score)) :
    (insertByScore r l).Pairwise (fun a b => b.score ≤ a.score) := by
  induction l with
  | nil => simp [insertByScore]
  | cons x xs ih =>
    simp only [insertByScore]
    rw [List.pairwise_cons] at h
    by_cases h2 : x.score < r.score
    · rw [if_pos h2]
      rw [List.pairwise_cons]
      refine ⟨?_, by rw [List.pairwise_cons]; exact h⟩
      intro y hy
      rcases List.mem_cons.mp hy with rfl | hy2
      · omega
      · have := h.1 y hy2
        omega
    · rw [if_neg h2]
      rw [List.pairwise_cons]
      refine ⟨?_, ih h.2⟩
      intro y hy
      have hy2 := (insertByScore_perm r xs).mem_iff.mp hy
      rcases List.mem_cons.mp hy2 with rfl | hy3
      · omega
      · exact h.1 y hy3

theorem sortByScoreDesc_pairwise (l : List SearchResult) :
    (sortByScoreDesc l).Pairwise (fun a b => b.score ≤ a.score) := by
  unfold sortByScoreDesc
  have hgen : ∀ (l2 : List SearchResult) (acc : List SearchResult),
      acc.Pairwise (fun a b => b.score ≤ a.score) →
      (l2.foldl (fun a r => insertByScore r a) acc).Pairwise
        (fun a b => b.score ≤ a.score) := by
    intro l2
    induction l2 with
    | nil => intro acc h; exact h
    | cons r rest ih =>
      intro acc h
      simp only [List.foldl_cons]
      exact ih _ (insertByScore_pairwise r acc h)
  exact hgen l [] (by simp)

theorem filter_insertByScore (s : Nat) (r : SearchResult)
    (l : List SearchResult) (hsort : l.Pairwise (fun a b => b.score ≤ a.score)) :
    (insertByScore r l).filter (fun x => x.score == s) =
      if r.score = s then l.filter (fun x => x.score == s) ++ [r]
      else l.filter (fun x => x.score == s) := by
  induction l with
  | nil => by_cases h : r.score = s <;> simp [insertByScore, h]
  | cons x xs ih =>
    rw [List.pairwise_cons] at hsort
    simp only [insertByScore]
    by_cases h2 : x.score < r.score
    · rw [if_pos h2]
      by_cases hrs : r.score = s
      · rw [if_pos hrs]
        have hnil : (x :: xs).filter (fun y => y.score == s) = [] := by
          rw [List.filter_eq_nil_iff]
          intro y hy
          have hle : y.score ≤ x.score := by
            rcases List.mem_cons.mp hy with rfl | hy2
            · exact Nat.le_refl _
            · exact hsort.1 y hy2
          simp only [beq_iff_eq]
          omega
        rw [List.filter_cons, if_pos (by simpa using hrs), hnil]
        rfl
      · rw [if_neg hrs]
        rw [List.filter_cons, if_neg (by simpa using hrs)]
    · rw [if_neg h2]
      have ih2 := ih hsort.2
      by_cases hrs : r.score = s
      · rw [if_pos hrs]
        rw [List.filter_cons, List.filter_cons, ih2, if_pos hrs]
        by_cases hx : (x.score == s) = true <;> simp [hx]
      · rw [if_neg hrs]
        rw [List.filter_cons, List.filter_cons, ih2, if_neg hrs]

theorem sortByScoreDesc_filter (l : List SearchResult) (s : Nat) :
    (sortByScoreDesc l).filter (fun x => x.score == s) =
      l.filter (fun x => x.score == s) := by
  unfold sortByScoreDesc
  have hgen : ∀ (l2 acc : List SearchResult),
      acc.Pairwise (fun a b => b.score ≤ a.score) →
      (l2.foldl (fun a r => insertByScore r a) acc).filter
          (fun x => x.score == s) =
        acc.filter (fun x => x.score == s) ++
          l2.filter (fun x => x.score == s) := by
    intro l2
    induction l2 with
    | nil => intro acc _; simp
    | cons r rest ih =>
      intro acc hacc
      simp only [List.foldl_cons]
      rw [ih _ (insertByScore_pairwise r acc hacc)]
      rw [filter_insertByScore s r acc hacc]
      by_cases hrs : r.score = s
      · rw [if_pos hrs]
        rw [List.filter_cons, if_pos (by simpa using hrs)]
        simp
      · rw [if_neg hrs]
        rw [List.filter_cons, if_neg (by simpa using hrs)]
  rw [hgen l [] (by simp)]
  simp

theorem search_file_from_entries (sc : Scorer) (idx : ProtoIndex) (q : String)
    (lim ms : Nat) (r : SearchResult) (hr : r ∈ search sc idx q lim ms) :
    ∃ e ∈ idx.searchEntries, r.file = e.file := by
  unfold search at hr
  split at hr
  · simp at hr
  · have h1 := (List.take_sublist lim _).mem hr
    have h2 := (sortByScoreDesc_perm _).mem_iff.mp h1
    exact ((searchPre_spec sc idx q lim ms).1 r h2).2

/-- C4 counterexample: ingesting `m2.proto` (which redefines the already
indexed fqname `p.M`) into `idxM1` and then evicting it does not restore
the pre-ingest statistics: the overwritten entry for `p.M` is popped too,
so the message count drops below its pre-ingest value. -/
theorem c4_stats_not_restored :
    idxMM = index_parsed_file idxM1 "m2.proto" pfM2 ∧
    get_stats (remove_file idxMM "m2.proto") ≠ get_stats idxM1 :=
  ⟨rfl, by decide⟩

/-- C4 (amended): ingest-then-evict returns the index — and hence
`get_stats` — to its pre-ingest state provided the document's path is not
already indexed, its entity fqnames collide with no existing table entry,
and no stale search entry carries that path; and (unconditionally, for any
indexed path) search after eviction returns no result whose source file
equals the evicted path. -/
theorem c4_evict_round_trip (idx : ProtoIndex) (p : String) (doc : ProtoFile)
    (hp : dGet idx.files p = none)
    (hsv : ∀ s ∈ doc.services, dGet idx.services s.full_name = none)
    (hmsg : ∀ m ∈ doc.messages, dGet idx.messages m.full_name = none)
    (hen : ∀ e ∈ doc.enums, dGet idx.enums e.full_name = none)
    (hent : ∀ en ∈ idx.searchEntries, en.file ≠ p) :
    remove_file (index_parsed_file idx p doc) p = idx ∧
    get_stats (remove_file (index_parsed_file idx p doc) p) = get_stats idx ∧
    (∀ (idx2 : ProtoIndex) (p2 : String) (pf : ProtoFile),
      dGet idx2.files p2 = some pf →
      ∀ (sc : Scorer) (q : String) (lim ms : Nat) (r : SearchResult),
        r ∈ search sc (remove_file idx2 p2) q lim ms → r.file ≠ p2) := by
  have hid := ingest_evict_identity idx p doc hp hsv hmsg hen hent
  refine ⟨hid, by rw [hid], ?_⟩
  intro idx2 p2 pf hpf sc q lim ms r hr
  obtain ⟨e, he, hfile⟩ := search_file_from_entries sc _ q lim ms r hr
  have hentries : (remove_file idx2 p2).searchEntries =
      idx2.searchEntries.filter (fun e => e.file != p2) := by
    simp [remove_file, hpf]
  rw [hentries] at he
  have := List.of_mem_filter he
  rw [hfile]
  simpa using this

theorem c4_evict_round_trip_witness :
    remove_file (index_parsed_file idxA "m2.proto" pfM2) "m2.proto" = idxA :=
  (c4_evict_round_trip idxA "m2.proto" pfM2 rfl
    (by
      intro s hs
      rw [show pfM2.services = ([] : List ProtoService) from rfl] at hs
      exact absurd hs (List.not_mem_nil s))
    (by
      intro m hm
      rw [show pfM2.messages = [msgM2] from rfl] at hm
      rw [List.mem_singleton] at hm
      subst hm
      rfl)
    (by
      intro e he
      rw [show pfM2.enums = ([] : List ProtoEnum) from rfl] at he
      exact absurd he (List.not_mem_nil e))
    (by
      intro en hen
      rw [show idxA.searchEntries =
        [⟨"A", "message", .message msgA, "a.proto"⟩] from rfl] at hen
      rw [List.mem_singleton] at hen
      subst hen
      decide)).1

/-- C7: the search output contract.  An empty query returns the empty
list; otherwise at most `limit` results are returned, every result scores
at least `min_score`, no two results share an fqname, the list is sorted
by descending score, and results of equal score appear in first-seen
(stable) order — their subsequence is exactly a prefix-restriction of the
pre-sort (phase-merged) order. -/
theorem c7_search_contract :
    (∀ (sc : Scorer) (idx : ProtoIndex) (lim ms : Nat),
      search sc idx "" lim ms = []) ∧
    (∀ (sc : Scorer) (idx : ProtoIndex) (q : String) (lim ms : Nat),
      (search sc idx q lim ms).length ≤ lim) ∧
    (∀ (sc : Scorer) (idx : ProtoIndex) (q : String) (lim ms : Nat)
      (r : SearchResult), r ∈ search sc idx q lim ms → ms ≤ r.score) ∧
    (∀ (sc : Scorer) (idx : ProtoIndex) (q : String) (lim ms : Nat),
      ((search sc idx q lim ms).map (fun r => r.name)).Nodup) ∧
    (∀ (sc : Scorer) (idx : ProtoIndex) (q : String) (lim ms : Nat),
      (search sc idx q lim ms).Pairwise (fun a b => b.score ≤ a.score)) ∧
    (∀ (sc : Scorer) (idx : ProtoIndex) (q : String) (lim ms s : Nat),
      List.Sublist
        ((search sc idx q lim ms).filter (fun r => r.score == s))
        ((searchPre sc idx q lim ms).filter (fun r => r.score == s))) := by
  refine ⟨?_, ?_, ?_, ?_, ?_, ?_⟩
  · intro sc idx lim ms
    rfl
  · intro sc idx q lim ms
    unfold search
    split
    · simp
    · exact List.length_take_le _ _
  · intro sc idx q lim ms r hr
    unfold search at hr
    split at hr
    · simp at hr
    · have h1 := (List.take_sublist lim _).mem hr
      have h2 := (sortByScoreDesc_perm _).mem_iff.mp h1
      exact ((searchPre_spec sc idx q lim ms).1 r h2).1
  · intro sc idx q lim ms
    unfold search
    split
    · simp
    · have hpre := (searchPre_spec sc idx q lim ms).2
      have hperm : ((sortByScoreDesc (searchPre sc idx q lim ms)).map
          (fun r => r.name)).Perm
          ((searchPre sc idx q lim ms).map (fun r => r.name)) :=
        (sortByScoreDesc_perm _).map _
      have hsorted : ((sortByScoreDesc (searchPre sc idx q lim ms)).map
          (fun r => r.name)).Nodup := hperm.nodup_iff.mpr hpre
      rw [List.map_take]
      exact hsorted.sublist (List.take_sublist lim _)
  · intro sc idx q lim ms
    unfold search
    split
    · simp
    · exact (sortByScoreDesc_pairwise _).sublist (List.take_sublist lim _)
  · intro sc idx q lim ms s
    unfold search
    split
    · simp
    · rw [← sortByScoreDesc_filter (searchPre sc idx q lim ms) s]
      exact (List.take_sublist lim _).filter _

theorem c7_search_contract_witness :
    60 ≤ (mkNameResult ⟨"A", "message", .message msgA, "a.proto"⟩ 80).score :=
  c7_search_contract.2.2.1 constScorer idxA "A" 20 60 _ (by decide)
